import Mathlib

/-!
Verification development for the Doge ("Wonderful Matrices") small-language-model
architecture: the Inner-Function Attention (IFA) sequence-transformation module,
the Cross-Domain Mixture-of-Experts (CDMoE) state-transformation module, the
rotary position encoder, and their composition into a decoder layer / decoder
stack with per-layer key-value caching for autoregressive generation.

The repository ships the module declarations, usage examples and training
notebooks; the module bodies (`innerfuncattn.py`, `cdmoe.py`, the decoder
stack) are referenced but not present, so every definition below is modelled
from the specification's component design (spec.md §4) and data model (§3).
Scalars are exact rationals: the transcendental pieces of the source
(exp inside softmax, the trigonometric rotary angle schedule, √d score
scaling) are replaced by computable rational surrogates that preserve every
property the specification states (positivity of the softmax kernel,
availability of a (cos, sin) pair per position, a fixed positive scale).
-/

namespace Doge

/-! # Definitions -/

/-- Modelled from the spec: computable, everywhere-positive rational surrogate
for the exponential used by every softmax in the missing module bodies
(`innerfuncattn.py`, `cdmoe.py`).  The specification's guarantees (weights
sum to 1, masked positions get exactly zero, top-k weights positive) depend
only on positivity of the kernel, which this surrogate shares with `exp`. -/
def qexp (x : ℚ) : ℚ :=
  if 0 ≤ x then 1 + x + x ^ 2 / 2 else 1 / (1 + (-x) + x ^ 2 / 2)

/-- A vector of rational activations (one row of a hidden-state tensor). -/
abbrev Vec := List ℚ

/-- A matrix as its list of rows (a linear layer's weight). -/
abbrev Mat := List Vec

/-- Inner product of two vectors (truncating to the shorter). -/
def dot (a b : Vec) : ℚ := (List.zipWith (· * ·) a b).sum

/-- Matrix-vector product: one inner product per weight row. -/
def matVec (W : Mat) (x : Vec) : Vec := W.map (fun r => dot r x)

/-- Elementwise vector sum (truncating to the shorter). -/
def vadd (a b : Vec) : Vec := List.zipWith (· + ·) a b

/-- Scalar multiple of a vector. -/
def smul (c : ℚ) (v : Vec) : Vec := v.map (fun t => c * t)

/-- The zero vector of a given dimension. -/
def zeroVec (d : Nat) : Vec := List.replicate d 0

/-- Split a vector into `n` consecutive chunks of length `hd`
(head-splitting of a `d_model`-sized row into `n_heads` head slices). -/
def chunks (n hd : Nat) (v : Vec) : List Vec :=
  match n with
  | 0 => []
  | m + 1 => v.take hd :: chunks m hd (v.drop hd)

/-! ## Expert index decomposition (spec §3, §9)

The decomposed expert key tables address `n_experts = side * side` experts by
the Cartesian pairing of a row table and a column table; the pure index
arithmetic below is the central bijection the spec calls out. -/

/-- Modelled from the spec: the row coordinate of a linear expert index
(`row = index // side`) for the decomposed expert key tables of the missing
`cdmoe.py`. -/
def expertRow (side idx : Nat) : Nat := idx / side

/-- Modelled from the spec: the column coordinate of a linear expert index
(`col = index % side`). -/
def expertCol (side idx : Nat) : Nat := idx % side

/-- Modelled from the spec: the linear expert index recovered from a
(row-key, col-key) coordinate pair. -/
def expertIndex (side r c : Nat) : Nat := r * side + c

/-! ## Masked softmax (spec §4.2 step 5, §7, §8)

The additive −∞ mask followed by softmax of the missing `innerfuncattn.py` is
modelled exactly: disallowed positions contribute kernel weight 0 (`e^{-∞}`),
allowed positions contribute `qexp score`, rows are normalized by the row sum,
and a row whose keys are all disallowed falls back to the defined all-zero
output (spec §4.2 edge case / §8 masked-row safety). -/

/-- Modelled from the spec: un-normalized masked kernel weights — `qexp` of the
score where the mask allows, exactly zero where it does not. -/
def expWeights (scores : List ℚ) (allowed : List Bool) : List ℚ :=
  List.zipWith (fun s a => if a then qexp s else 0) scores allowed

/-- Modelled from the spec: masked softmax over one query row, with the
spec-mandated all-zero fallback for a fully masked row. -/
def maskedSoftmax (scores : List ℚ) (allowed : List Bool) : List ℚ :=
  if (expWeights scores allowed).sum = 0 then
    (expWeights scores allowed).map (fun _ => (0 : ℚ))
  else
    (expWeights scores allowed).map (fun t => t / (expWeights scores allowed).sum)

/-- Weighted combination of value vectors: `Σ_j w_j • v_j`, accumulated onto
the zero vector of the target dimension. -/
def weightedSum (d : Nat) (w : List ℚ) (vs : List Vec) : Vec :=
  (List.zipWith smul w vs).foldr vadd (zeroVec d)

/-! ## Top-k expert selection (spec §4.3 steps 2–3)

Exact top-k over the full combined score space with the spec's deterministic
tie-break: equal scores are won by the lower expert index. -/

/-- Modelled from the spec: the comparator ordering experts by descending
combined score, ties broken by ascending expert index (spec §4.3 tie-break
policy, "lowest index wins"). -/
def scoreBefore (s : List ℚ) (i j : Nat) : Prop :=
  s.getD j 0 < s.getD i 0 ∨ (s.getD i 0 = s.getD j 0 ∧ i ≤ j)

instance scoreBeforeDecidable (s : List ℚ) : DecidableRel (scoreBefore s) :=
  fun i j => inferInstanceAs
    (Decidable (s.getD j 0 < s.getD i 0 ∨ (s.getD i 0 = s.getD j 0 ∧ i ≤ j)))

/-- Modelled from the spec: all expert indices ranked best-first under
`scoreBefore` (a deterministic total order, so the ranking is unique and
reproducible). -/
def rankedExperts (s : List ℚ) : List Nat :=
  (List.range s.length).insertionSort (scoreBefore s)

/-- Modelled from the spec: the top-k expert indices for one token. -/
def topKExperts (k : Nat) (s : List ℚ) : List Nat := (rankedExperts s).take k

/-- Modelled from the spec: the softmax normalizer over just the selected
top-k scores (sparse top-k gating, not dense softmax). -/
def routingDenom (k : Nat) (s : List ℚ) : ℚ :=
  ((topKExperts k s).map (fun e => qexp (s.getD e 0))).sum

/-- Modelled from the spec: the routing weight of one expert — softmax over
the selected top-k scores for selected experts, implicitly zero for every
unselected expert. -/
def routingWeight (k : Nat) (s : List ℚ) (e : Nat) : ℚ :=
  if e ∈ topKExperts k s then qexp (s.getD e 0) / routingDenom k s else 0

/-! ## Activation functions (spec §9: closed tagged-variant dispatch) -/

/-- Modelled from the spec: the closed set of supported activation functions
(the source's string-keyed `act_fn` dispatch, fixed at construction). -/
inductive ActFn
  | silu
  | relu
deriving DecidableEq

/-- Evaluate an activation: `silu` uses the `qexp`-surrogate sigmoid. -/
def ActFn.eval : ActFn → ℚ → ℚ
  | .silu, x => x * (1 / (1 + qexp (-x)))
  | .relu, x => max x 0

/-! ## CDMoE (spec §4.3) -/

/-- Modelled from the spec: the Cross-Domain Mixture-of-Experts module of the
missing `cdmoe.py` — a dense feed-forward path plus a sparse expert path with
decomposed (row × column) key tables, exact top-k routing and softmax-over-
selected weighting. -/
structure CDMoE where
  d_model : Nat
  act_fn : ActFn
  d_ff : Nat
  d_private_expert_retrieval : Nat
  n_experts : Nat
  n_experts_heads : Nat
  n_experts_per_head : Nat
  W1 : Mat
  W2 : Mat
  Wqr : Mat
  Wqc : Mat
  rowKeys : List Vec
  colKeys : List Vec
  expertsW1 : List Mat
  expertsW2 : List Mat

/-- The side of the decomposed expert table: `side = sqrt (n_experts)`. -/
def CDMoE.side (M : CDMoE) : Nat := Nat.sqrt M.n_experts

/-- The configured top-k: `k = n_experts_heads * n_experts_per_head`. -/
def CDMoE.topk (M : CDMoE) : Nat := M.n_experts_heads * M.n_experts_per_head

/-- Modelled from the spec: per-token combined expert scores — the retrieval
query halves are projected from the hidden state, scored against the row and
column key tables, and the score of expert `e = (r, c)` is
`row-score[r] + col-score[c]` (additive decomposition, §4.3 step 2). -/
def combinedScores (M : CDMoE) (x : Vec) : List ℚ :=
  (List.range M.n_experts).map (fun e =>
    dot (M.rowKeys.getD (expertRow M.side e) []) (matVec M.Wqr x) +
      dot (M.colKeys.getD (expertCol M.side e) []) (matVec M.Wqc x))

/-- Modelled from the spec: one private expert's independent feed-forward
transform of the hidden state (§4.3 step 4). -/
def expertFF (M : CDMoE) (e : Nat) (x : Vec) : Vec :=
  matVec (M.expertsW2.getD e [])
    ((matVec (M.expertsW1.getD e []) x).map M.act_fn.eval)

/-- Modelled from the spec: the dense path, always computed (§4.3 step 1). -/
def densePath (M : CDMoE) (x : Vec) : Vec :=
  matVec M.W2 ((matVec M.W1 x).map M.act_fn.eval)

/-- Modelled from the spec: the sparse path — selected experts' outputs scaled
by their routing weights and summed (§4.3 step 4). -/
def sparsePath (M : CDMoE) (x : Vec) : Vec :=
  ((topKExperts M.topk (combinedScores M x)).map (fun e =>
      smul (routingWeight M.topk (combinedScores M x) e) (expertFF M e x))).foldr
    vadd (zeroVec M.d_model)

/-- Modelled from the spec: CDMoE forward for one token —
`dense path + sparse path`, same shape as the input (§4.3 step 5). -/
def cdmoeToken (M : CDMoE) (x : Vec) : Vec :=
  vadd (densePath M x) (sparsePath M x)

/-- Modelled from the spec: CDMoE forward over a (batch, seq, d_model)
hidden-state tensor — an independent per-token map. -/
def cdmoeForward (M : CDMoE) (x : List (List Vec)) : List (List Vec) :=
  x.map (fun seq => seq.map (fun t => cdmoeToken M t))

/-! ## Rotary position encoder (spec §4.1) -/

/-- Modelled from the spec: rotate the last-dimension pairs of a vector by a
(cos, sin) schedule: even slot `2i` becomes `x[2i]·cos_i − x[2i+1]·sin_i`,
odd slot `2i+1` becomes `x[2i]·sin_i + x[2i+1]·cos_i`. -/
def rotateVec (c s x : Vec) : Vec :=
  (List.range x.length).map (fun n =>
    if n % 2 = 0 then
      x.getD n 0 * c.getD (n / 2) 0 - x.getD (n + 1) 0 * s.getD (n / 2) 0
    else
      x.getD (n - 1) 0 * s.getD (n / 2) 0 + x.getD n 0 * c.getD (n / 2) 0)

/-! ## Inner-Function Attention (spec §4.2) -/

/-- Modelled from the spec: the Inner-Function Attention module of the missing
`innerfuncattn.py`.  The transcendental angle schedule of the rotary encoder
is carried as per-position (cos, sin) table mappings, total in the position
(the spec's "transparently extend the schedule" option for positions beyond
`max_position_embeddings`, documented here as the modelled choice); all other
fields are the learned projections, the learned inner-value pool, and the
configuration surface. -/
structure InnerFuncAttn where
  d_model : Nat
  n_heads : Nat
  n_inner_values : Nat
  d_inner_values_retrieval : Nat
  max_position_embeddings : Nat
  layer_idx : Nat
  Wq : Mat
  Wk : Mat
  Wv : Mat
  Wg : Mat
  Wo : Mat
  innerPool : List Vec
  rotCos : Nat → Vec
  rotSin : Nat → Vec

/-- Per-head dimension: `d_model / n_heads`. -/
def InnerFuncAttn.headDim (M : InnerFuncAttn) : Nat := M.d_model / M.n_heads

/-- Modelled from the spec: the `1/√head_dim` score scale, as the rational
surrogate `1 / Nat.sqrt head_dim` (claims depend only on it being a fixed
per-module constant). -/
def InnerFuncAttn.scale (M : InnerFuncAttn) : ℚ :=
  1 / ((Nat.sqrt M.headDim : ℚ))

/-- Modelled from the spec: the per-layer key-value cache — two growing
per-position sequences (each position holding its per-head key / value
vectors), created empty at generation start and appended to by every
attention call (spec §3 Key-Value Cache). -/
structure KVCache where
  keys : List (List Vec)
  vals : List (List Vec)
deriving DecidableEq

/-- The empty cache a generation session starts from. -/
def KVCache.emptyCache : KVCache := ⟨[], []⟩

/-- The cache's `seen_length`: how many positions have been written. -/
def KVCache.seenLength (c : KVCache) : Nat := c.keys.length

/-- Modelled from the spec: per-token query head vectors — project, split into
heads, rotate by the schedule at the token's absolute position (§4.2 steps
1–2; the position argument is the cache length plus the local index, so any
absolute offset is accepted). -/
def tokenQuery (M : InnerFuncAttn) (pos : Nat) (x : Vec) : List Vec :=
  (chunks M.n_heads M.headDim (matVec M.Wq x)).map
    (fun h => rotateVec (M.rotCos pos) (M.rotSin pos) h)

/-- Modelled from the spec: per-token key head vectors (as `tokenQuery`, with
the key projection). -/
def tokenKey (M : InnerFuncAttn) (pos : Nat) (x : Vec) : List Vec :=
  (chunks M.n_heads M.headDim (matVec M.Wk x)).map
    (fun h => rotateVec (M.rotCos pos) (M.rotSin pos) h)

/-- Modelled from the spec: per-token inner-value mixing weights — the inner
gate projection of the hidden state, softmaxed over the `n_inner_values`
axis (§4.2 step 4). -/
def innerMix (M : InnerFuncAttn) (x : Vec) : List ℚ :=
  maskedSoftmax (matVec M.Wg x) (List.replicate M.n_inner_values true)

/-- Modelled from the spec: the inner-value contribution — the mixing weights
applied to the learned inner-value pool (§4.2 step 4). -/
def innerContribution (M : InnerFuncAttn) (x : Vec) : Vec :=
  weightedSum M.d_model (innerMix M x) M.innerPool

/-- Modelled from the spec: per-token merged value head vectors — the value
projection plus the inner-value contribution, split into heads.  The merge is
additive (the spec's §9 open choice, documented here: additive merge, which
preserves `head_dim` alignment), and it is applied before the cache append so
the cached values are exactly the values attention consumes — required by the
causal-consistency guarantee (§8). -/
def tokenVal (M : InnerFuncAttn) (x : Vec) : List Vec :=
  List.zipWith vadd (chunks M.n_heads M.headDim (matVec M.Wv x))
    (chunks M.n_heads M.headDim (innerContribution M x))

/-- One head's column of a cached key/value tensor. -/
def headCol (K : List (List Vec)) (h : Nat) : List Vec :=
  K.map (fun entry => entry.getD h [])

/-- Modelled from the spec: the composite causal+padding mask row for a query
at absolute position `pos` over `total` key positions — key `j` is attendable
iff `j ≤ pos` (causal) and `j` is a real, non-padding token (§3 attention
mask invariant). -/
def allowedKeys (pads : List Bool) (total pos : Nat) : List Bool :=
  (List.range total).map (fun j => decide (j ≤ pos) && pads.getD j false)

/-- Modelled from the spec: one head's attention-weight row for one query —
scaled dot-product scores against every cached key, additively masked and
softmaxed (§4.2 step 5). -/
def ifaAttnRow (M : InnerFuncAttn) (pads : List Bool) (K : List (List Vec))
    (pos : Nat) (q : Vec) (h : Nat) : List ℚ :=
  maskedSoftmax ((headCol K h).map (fun kv => dot q kv * M.scale))
    (allowedKeys pads K.length pos)

/-- Modelled from the spec: the attention output for one query token — per
head, the weight row applied to the merged values; heads concatenated and
output-projected (§4.2 steps 5–6). -/
def ifaAttendToken (M : InnerFuncAttn) (pads : List Bool)
    (K V : List (List Vec)) (pos : Nat) (x : Vec) : Vec :=
  matVec M.Wo
    (((List.range M.n_heads).map (fun h =>
        weightedSum M.headDim
          (ifaAttnRow M pads K pos ((tokenQuery M pos x).getD h []) h)
          (headCol V h))).flatten)

/-- Modelled from the spec: the IFA forward over a chunk of new tokens given
the existing cache — new keys/values are appended to the cache (append-only,
§4.2 step 3), and each new query attends over the whole updated cache under
the causal+padding mask.  `p` is the cache's seen length (the chunk's first
absolute position); `pads` covers all absolute positions. -/
def ifaChunk (M : InnerFuncAttn) (pads : List Bool) (cache : KVCache)
    (p : Nat) (xs : List Vec) : List Vec × KVCache :=
  (List.zipWith
      (fun pos x => ifaAttendToken M pads
        (cache.keys ++ List.zipWith (fun pos2 x2 => tokenKey M pos2 x2)
          (List.range' p xs.length) xs)
        (cache.vals ++ xs.map (fun x2 => tokenVal M x2)) pos x)
      (List.range' p xs.length) xs,
   ⟨cache.keys ++ List.zipWith (fun pos2 x2 => tokenKey M pos2 x2)
        (List.range' p xs.length) xs,
    cache.vals ++ xs.map (fun x2 => tokenVal M x2)⟩)

/-- Modelled from the spec: the IFA forward over a (batch, seq, d_model)
hidden-state tensor with a fresh (empty) cache — per batch element, one chunk
call starting at absolute position 0; returns the outputs and the per-batch
updated caches. -/
def ifaForward (M : InnerFuncAttn) (x : List (List Vec))
    (mask : List (List Bool)) : List (List Vec) × List KVCache :=
  (List.zipWith (fun xs pads => (ifaChunk M pads KVCache.emptyCache 0 xs).1) x mask,
   List.zipWith (fun xs pads => (ifaChunk M pads KVCache.emptyCache 0 xs).2) x mask)

/-! ## Decoder layer and decoder stack (spec §4.4, §4.5) -/

/-- Modelled from the spec: a per-token normalization with a learned
elementwise gain.  The spec fixes only "normalize" as a pure per-token map;
the rational surrogate divides by `1 + Σ x_i²` (positive, so total) and then
applies the gain — every cited claim depends only on this being a pure
per-token function. -/
def normQ (g : Vec) (x : Vec) : Vec :=
  List.zipWith (· * ·) g (x.map (fun t => t / (1 + dot x x)))

/-- Modelled from the spec: one decoder layer — normalize → IFA →
residual-add → normalize → CDMoE → residual-add (§4.4). -/
structure DecoderLayer where
  attn : InnerFuncAttn
  moe : CDMoE
  g1 : Vec
  g2 : Vec

/-- Modelled from the spec: a decoder layer's forward over a chunk of new
tokens, threading the layer's cache (§4.4). -/
def layerChunk (L : DecoderLayer) (pads : List Bool) (cache : KVCache)
    (p : Nat) (xs : List Vec) : List Vec × KVCache :=
  (List.zipWith
      (fun h1 n2moe => vadd h1 n2moe)
      (List.zipWith vadd xs
        (ifaChunk L.attn pads cache p (xs.map (fun x => normQ L.g1 x))).1)
      ((List.zipWith vadd xs
          (ifaChunk L.attn pads cache p (xs.map (fun x => normQ L.g1 x))).1).map
        (fun h1 => cdmoeToken L.moe (normQ L.g2 h1))),
   (ifaChunk L.attn pads cache p (xs.map (fun x => normQ L.g1 x))).2)

/-- Modelled from the spec: the decoder stack's weights — token embedding
table, the decoder layers, the final norm gain and the vocabulary
projection (§4.5). -/
structure DecoderStack where
  embed : List Vec
  layers : List DecoderLayer
  gFinal : Vec
  Wvocab : Mat

/-- Thread a chunk of hidden states through the decoder layers, consuming one
cache per layer and emitting the updated caches in layer order. -/
def runLayers (Ls : List DecoderLayer) (pads : List Bool)
    (caches : List KVCache) (p : Nat) (xs : List Vec) :
    List Vec × List KVCache :=
  match Ls, caches with
  | [], _ => (xs, [])
  | L :: rest, cs =>
      ((runLayers rest pads cs.tail p (layerChunk L pads (cs.headD KVCache.emptyCache) p xs).1).1,
       (layerChunk L pads (cs.headD KVCache.emptyCache) p xs).2 ::
         (runLayers rest pads cs.tail p (layerChunk L pads (cs.headD KVCache.emptyCache) p xs).1).2)

/-- Modelled from the spec: the Decoder Stack forward over a chunk of new
token ids given the per-layer caches — embedding lookup, the decoder layers
threading the caches, final normalization and vocabulary projection (§4.5).
Full-sequence mode passes all tokens with empty caches; single-step mode
passes one token with the carried caches. -/
def stackChunk (W : DecoderStack) (pads : List Bool) (caches : List KVCache)
    (p : Nat) (tokens : List Nat) : List Vec × List KVCache :=
  ((runLayers W.layers pads caches p
      (tokens.map (fun t => W.embed.getD t []))).1.map
    (fun h => matVec W.Wvocab (normQ W.gFinal h)),
   (runLayers W.layers pads caches p
      (tokens.map (fun t => W.embed.getD t []))).2)

/-- The per-layer empty caches a generation session starts from. -/
def emptyCaches (n : Nat) : List KVCache := List.replicate n KVCache.emptyCache

/-- Modelled from the spec: the incremental generation loop — the Decoder
Stack called once per token, each step carrying the caches returned by the
previous step (spec §4.5 single-step mode; §6 generation-loop collaborator).
Returns all per-step logits concatenated in step order, and the final
caches. -/
def runIncremental (W : DecoderStack) (pads : List Bool)
    (caches : List KVCache) (p : Nat) : List Nat → List Vec × List KVCache
  | [] => ([], caches)
  | t :: ts =>
      ((stackChunk W pads caches p [t]).1 ++
        (runIncremental W pads (stackChunk W pads caches p [t]).2 (p + 1) ts).1,
       (runIncremental W pads (stackChunk W pads caches p [t]).2 (p + 1) ts).2)

/-! ## Eager configuration validation (spec §4.3, §6, §7) -/

/-- Modelled from the spec: the configuration checks the missing module
constructors run eagerly — `d_model` divisible by `n_heads` for the
attention module. -/
def attnConfigOk (M : InnerFuncAttn) : Bool :=
  M.d_model % M.n_heads == 0

/-- Modelled from the spec: the configuration checks of the CDMoE
constructor — `k ≤ n_experts` and `n_experts` a perfect square for the
decomposed expert table. -/
def moeConfigOk (M : CDMoE) : Bool :=
  (M.topk ≤ M.n_experts : Bool) && (M.side * M.side == M.n_experts)

/-- Modelled from the spec: the attention module constructor — validates the
configuration eagerly and only then yields the module; an invalid
configuration is a construction-time error (spec §7), so the (total) forward
functions can never observe one. -/
def mkInnerFuncAttn (M : InnerFuncAttn) : Except String InnerFuncAttn :=
  if attnConfigOk M then .ok M
  else .error "configuration error: d_model not divisible by n_heads"

/-- Modelled from the spec: the CDMoE constructor — validates `k ≤ n_experts`
and squareness of the expert table eagerly (spec §4.3 failure mode, §7). -/
def mkCDMoE (M : CDMoE) : Except String CDMoE :=
  if M.n_experts < M.topk then
    .error "configuration error: k > n_experts"
  else if M.side * M.side ≠ M.n_experts then
    .error "configuration error: n_experts is not a perfect square"
  else .ok M

/-! ## Well-formedness of weights and caches -/

/-- Well-formed IFA weights: every projection has the row count the
configuration dictates and the inner-value pool vectors live in model
dimension.  (This is what a successfully constructed module guarantees.) -/
def IFAWf (M : InnerFuncAttn) : Prop :=
  M.Wq.length = M.n_heads * M.headDim ∧
  M.Wk.length = M.n_heads * M.headDim ∧
  M.Wv.length = M.n_heads * M.headDim ∧
  M.Wo.length = M.d_model ∧
  ∀ v ∈ M.innerPool, v.length = M.d_model

/-- Well-formed cache at seen length `p`: `p` positions written, every
written value entry holding `n_heads` head vectors of `head_dim` each. -/
def CacheWF (M : InnerFuncAttn) (c : KVCache) (p : Nat) : Prop :=
  c.keys.length = p ∧ c.vals.length = p ∧
    ∀ e ∈ c.vals, e.length = M.n_heads ∧ ∀ v ∈ e, v.length = M.headDim

/-- Well-formed decoder stack: every layer's attention weights are. -/
def StackWF (W : DecoderStack) : Prop := ∀ L ∈ W.layers, IFAWf L.attn

/-- Per-layer caches well-formed at seen length `p`, aligned with the layer
list. -/
def CachesWF (Ls : List DecoderLayer) (cs : List KVCache) (p : Nat) : Prop :=
  List.Forall₂ (fun L c => CacheWF L.attn c p) Ls cs

/-- One cache extends another when its key and value sequences append to the
older ones: entries, once written, are never overwritten (spec §3 Key-Value
Cache invariant). -/
def cacheExtends (c c2 : KVCache) : Prop :=
  ∃ dk dv, c2.keys = c.keys ++ dk ∧ c2.vals = c.vals ++ dv

/-- Per-step cache growth relation: after processing `m` more tokens a cache
has grown by exactly `m` appended entries. -/
def cacheGrows (m : Nat) (c c2 : KVCache) : Prop :=
  c2.keys.length = c.keys.length + m ∧ c2.vals.length = c.vals.length + m ∧
    cacheExtends c c2

/-! ## Concrete example instantiations

Small fully concrete modules used to exercise the theorems on explicit
inputs, including the README usage example sizes (batch 2, seq 16,
d_model 64, n_heads 1, n_inner_values 16; CDMoE with n_experts 64,
n_experts_heads 1, n_experts_per_head 2). -/

/-- A minimal two-dimensional IFA instance with zero weights. -/
def exAttn2 : InnerFuncAttn where
  d_model := 2
  n_heads := 1
  n_inner_values := 1
  d_inner_values_retrieval := 2
  max_position_embeddings := 4
  layer_idx := 0
  Wq := [[0, 0], [0, 0]]
  Wk := [[0, 0], [0, 0]]
  Wv := [[0, 0], [0, 0]]
  Wg := [[0, 0]]
  Wo := [[0, 0], [0, 0]]
  innerPool := [[0, 0]]
  rotCos := fun _ => [1]
  rotSin := fun _ => [0]

/-- A minimal CDMoE instance: 4 experts in a 2×2 table, top-2 routing. -/
def exMoE2 : CDMoE where
  d_model := 2
  act_fn := ActFn.silu
  d_ff := 2
  d_private_expert_retrieval := 1
  n_experts := 4
  n_experts_heads := 1
  n_experts_per_head := 2
  W1 := [[0, 0], [0, 0]]
  W2 := [[0, 0], [0, 0]]
  Wqr := [[0, 0]]
  Wqc := [[0, 0]]
  rowKeys := [[0], [0]]
  colKeys := [[0], [0]]
  expertsW1 := List.replicate 4 [[0, 0]]
  expertsW2 := List.replicate 4 [[0], [0]]

/-- A one-layer decoder built from the minimal modules. -/
def exLayer : DecoderLayer where
  attn := exAttn2
  moe := exMoE2
  g1 := [1, 1]
  g2 := [1, 1]

/-- A one-layer decoder stack with a two-token vocabulary. -/
def exStack : DecoderStack where
  embed := [[1, 0], [0, 1]]
  layers := [exLayer]
  gFinal := [1, 1]
  Wvocab := [[1, 0], [0, 1]]

/-- The README usage example IFA: d_model 64, 1 head, 16 inner values. -/
def exAttn64 : InnerFuncAttn where
  d_model := 64
  n_heads := 1
  n_inner_values := 16
  d_inner_values_retrieval := 64
  max_position_embeddings := 16
  layer_idx := 0
  Wq := List.replicate 64 (List.replicate 64 0)
  Wk := List.replicate 64 (List.replicate 64 0)
  Wv := List.replicate 64 (List.replicate 64 0)
  Wg := List.replicate 16 (List.replicate 64 0)
  Wo := List.replicate 64 (List.replicate 64 0)
  innerPool := List.replicate 16 (List.replicate 64 0)
  rotCos := fun _ => List.replicate 32 1
  rotSin := fun _ => List.replicate 32 0

/-- The README usage example CDMoE: d_model 64, 64 experts (8×8 table),
1 expert head with 2 experts per head. -/
def exMoE64 : CDMoE where
  d_model := 64
  act_fn := ActFn.silu
  d_ff := 256
  d_private_expert_retrieval := 64
  n_experts := 64
  n_experts_heads := 1
  n_experts_per_head := 2
  W1 := List.replicate 256 (List.replicate 64 0)
  W2 := List.replicate 64 (List.replicate 256 0)
  Wqr := List.replicate 64 (List.replicate 64 0)
  Wqc := List.replicate 64 (List.replicate 64 0)
  rowKeys := List.replicate 8 (List.replicate 64 0)
  colKeys := List.replicate 8 (List.replicate 64 0)
  expertsW1 := List.replicate 64 (List.replicate 4 (List.replicate 64 0))
  expertsW2 := List.replicate 64 (List.replicate 64 (List.replicate 4 0))

/-- An invalid attention configuration: d_model 3 with 2 heads. -/
def badAttn : InnerFuncAttn where
  d_model := 3
  n_heads := 2
  n_inner_values := 1
  d_inner_values_retrieval := 1
  max_position_embeddings := 1
  layer_idx := 0
  Wq := []
  Wk := []
  Wv := []
  Wg := []
  Wo := []
  innerPool := []
  rotCos := fun _ => []
  rotSin := fun _ => []

/-- An invalid CDMoE configuration: top-k 5 over only 4 experts. -/
def badMoE : CDMoE where
  d_model := 2
  act_fn := ActFn.relu
  d_ff := 2
  d_private_expert_retrieval := 1
  n_experts := 4
  n_experts_heads := 1
  n_experts_per_head := 5
  W1 := []
  W2 := []
  Wqr := []
  Wqc := []
  rowKeys := []
  colKeys := []
  expertsW1 := []
  expertsW2 := []

/-! # Theorems -/

theorem qexp_pos (x : ℚ) : 0 < qexp x := by
  unfold qexp
  split
  · nlinarith [sq_nonneg x]
  · apply div_pos one_pos
    nlinarith [sq_nonneg x]

theorem qexp_ne_zero (x : ℚ) : qexp x ≠ 0 := ne_of_gt (qexp_pos x)

theorem length_matVec (W : Mat) (x : Vec) : (matVec W x).length = W.length := by
  simp [matVec]

theorem length_vadd (a b : Vec) : (vadd a b).length = min a.length b.length := by
  simp [vadd]

theorem length_smul (c : ℚ) (v : Vec) : (smul c v).length = v.length := by
  simp [smul]

theorem length_chunks (n hd : Nat) (v : Vec) : (chunks n hd v).length = n := by
  induction n generalizing v with
  | zero => rfl
  | succ m ih => simp [chunks, ih]

theorem chunks_mem_length (n hd : Nat) (v : Vec) (h : n * hd ≤ v.length) :
    ∀ c ∈ chunks n hd v, c.length = hd := by
  induction n generalizing v with
  | zero => intro c hc; simp [chunks] at hc
  | succ m ih =>
      intro c hc
      simp only [chunks, List.mem_cons] at hc
      rcases hc with rfl | hc
      · have : hd ≤ v.length := le_trans (Nat.le_mul_of_pos_left hd (Nat.succ_pos m)) h
        simp [List.length_take, Nat.min_eq_left this]
      · refine ih (v.drop hd) ?_ c hc
        have hlen : v.length - hd ≥ m * hd := by
          have := h
          rw [Nat.succ_mul] at this
          omega
        simpa [List.length_drop] using hlen

theorem dot_zero_right (r : Vec) (z : Vec) (hz : ∀ t ∈ z, t = 0) : dot r z = 0 := by
  induction r generalizing z with
  | nil => simp [dot]
  | cons a as ih =>
      cases z with
      | nil => simp [dot]
      | cons b bs =>
          have hb : b = 0 := hz b (by simp)
          have hbs : ∀ t ∈ bs, t = 0 := fun t ht => hz t (by simp [ht])
          have := ih bs hbs
          simp only [dot, List.zipWith_cons_cons, List.sum_cons] at *
          rw [hb, this]
          ring

theorem expertIndex_row_col (side idx : Nat) (_hs : 0 < side) :
    expertIndex side (expertRow side idx) (expertCol side idx) = idx := by
  simp [expertIndex, expertRow, expertCol, Nat.div_add_mod']

theorem expertRow_lt (side idx : Nat) (h : idx < side * side) :
    expertRow side idx < side := by
  exact Nat.div_lt_of_lt_mul (by simpa [Nat.mul_comm] using h)

theorem expertCol_lt (side idx : Nat) (hs : 0 < side) :
    expertCol side idx < side := Nat.mod_lt idx hs

theorem expertRow_index (side r c : Nat) (hc : c < side) :
    expertRow side (expertIndex side r c) = r := by
  unfold expertRow expertIndex
  have hs : 0 < side := by omega
  rw [Nat.add_comm, Nat.add_mul_div_right c r hs, Nat.div_eq_of_lt hc]
  omega

theorem expertCol_index (side r c : Nat) (hc : c < side) :
    expertCol side (expertIndex side r c) = c := by
  unfold expertCol expertIndex
  rw [Nat.add_comm, Nat.add_mul_mod_self_right, Nat.mod_eq_of_lt hc]

theorem expertIndex_lt (side r c : Nat) (hr : r < side) (hc : c < side) :
    expertIndex side r c < side * side := by
  unfold expertIndex
  calc r * side + c < r * side + side := by omega
    _ = (r + 1) * side := by ring
    _ ≤ side * side := by
        have : r + 1 ≤ side := hr
        exact Nat.mul_le_mul_right side this

theorem mem_zipWith_decomp {α β γ : Type} (f : α → β → γ) (l : List α)
    (m : List β) (t : γ) (h : t ∈ List.zipWith f l m) :
    ∃ j, ∃ hj1 : j < l.length, ∃ hj2 : j < m.length, f l[j] m[j] = t := by
  rw [List.mem_iff_getElem] at h
  rcases h with ⟨j, hj, hval⟩
  have hl : j < l.length := by simp [List.length_zipWith] at hj; omega
  have hm : j < m.length := by simp [List.length_zipWith] at hj; omega
  refine ⟨j, hl, hm, ?_⟩
  rw [← hval, List.getElem_zipWith]

theorem expWeights_nonneg (s : List ℚ) (a : List Bool) :
    ∀ t ∈ expWeights s a, 0 ≤ t := by
  intro t ht
  rcases mem_zipWith_decomp _ _ _ _ ht with ⟨j, hj1, hj2, hj3⟩
  subst hj3
  split
  · exact le_of_lt (qexp_pos _)
  · exact le_rfl

theorem expWeights_sum_nonneg (s : List ℚ) (a : List Bool) :
    0 ≤ (expWeights s a).sum :=
  List.sum_nonneg (expWeights_nonneg s a)

theorem expWeights_getElem (s : List ℚ) (a : List Bool) (i : Nat)
    (hs : i < s.length) (ha : i < a.length)
    (hw : i < (expWeights s a).length) :
    (expWeights s a)[i] = if a[i] then qexp s[i] else 0 := by
  simp [expWeights]

theorem length_expWeights (s : List ℚ) (a : List Bool) :
    (expWeights s a).length = min s.length a.length := by
  simp [expWeights]

theorem expWeights_sum_pos (s : List ℚ) (a : List Bool) (i : Nat)
    (hs : i < s.length) (ha : i < a.length) (hai : a[i] = true) :
    0 < (expWeights s a).sum := by
  have hlen : i < (expWeights s a).length := by
    rw [length_expWeights]; omega
  have hmem : (expWeights s a)[i] ∈ expWeights s a := List.getElem_mem hlen
  have hval : (expWeights s a)[i] = qexp s[i] := by
    rw [expWeights_getElem s a i hs ha hlen, hai, if_pos rfl]
  have h1 : qexp s[i] ≤ (expWeights s a).sum := by
    rw [← hval]
    exact List.single_le_sum (expWeights_nonneg s a) _ hmem
  exact lt_of_lt_of_le (qexp_pos _) h1

theorem sum_map_div (l : List ℚ) (z : ℚ) :
    (l.map (fun t => t / z)).sum = l.sum / z := by
  induction l with
  | nil => simp
  | cons x xs ih => simp [ih, add_div]

theorem maskedSoftmax_sum_one (s : List ℚ) (a : List Bool) (i : Nat)
    (hs : i < s.length) (ha : i < a.length) (hai : a[i] = true) :
    (maskedSoftmax s a).sum = 1 := by
  have hZ : 0 < (expWeights s a).sum := expWeights_sum_pos s a i hs ha hai
  unfold maskedSoftmax
  rw [if_neg (ne_of_gt hZ)]
  rw [sum_map_div, div_self (ne_of_gt hZ)]

theorem length_maskedSoftmax (s : List ℚ) (a : List Bool) :
    (maskedSoftmax s a).length = min s.length a.length := by
  unfold maskedSoftmax
  split <;> simp [length_expWeights]

theorem maskedSoftmax_zero_of_not_allowed (s : List ℚ) (a : List Bool) (i : Nat)
    (hs : i < s.length) (ha : i < a.length) (hai : a[i] = false) :
    (maskedSoftmax s a).getD i 0 = 0 := by
  have hlen : i < (maskedSoftmax s a).length := by
    rw [length_maskedSoftmax]; omega
  have hwlen : i < (expWeights s a).length := by
    rw [length_expWeights]
    omega
  have hw : (expWeights s a)[i] = 0 := by
    rw [expWeights_getElem s a i hs ha hwlen, hai]
    simp
  rw [List.getD_eq_getElem _ _ hlen]
  unfold maskedSoftmax
  split
  · simp [List.getElem_map]
  · simp only [List.getElem_map]
    rw [hw, zero_div]

theorem maskedSoftmax_all_zero (s : List ℚ) (a : List Bool)
    (hall : ∀ b ∈ a, b = false) :
    ∀ t ∈ maskedSoftmax s a, t = 0 := by
  have hw : ∀ t ∈ expWeights s a, t = 0 := by
    intro t ht
    rcases mem_zipWith_decomp _ _ _ _ ht with ⟨j, hj1, hj2, hj3⟩
    have : a[j] = false := hall _ (List.getElem_mem hj2)
    rw [← hj3, this]
    simp
  have hZ : (expWeights s a).sum = 0 := by
    exact List.sum_eq_zero hw
  unfold maskedSoftmax
  rw [if_pos hZ]
  intro t ht
  rcases List.mem_map.mp ht with ⟨u, hu1, hu2⟩
  exact hu2.symm

theorem maskedSoftmax_append_masked (s1 s2 : List ℚ) (a1 a2 : List Bool)
    (hlen : s1.length = a1.length)
    (h2 : ∀ b ∈ a2, b = false) :
    maskedSoftmax (s1 ++ s2) (a1 ++ a2) =
      maskedSoftmax s1 a1 ++ (expWeights s2 a2).map (fun _ => (0 : ℚ)) := by
  have hsplit : expWeights (s1 ++ s2) (a1 ++ a2) =
      expWeights s1 a1 ++ expWeights s2 a2 := by
    unfold expWeights
    exact List.zipWith_append _ _ _ _ _ hlen
  have hz2 : ∀ t ∈ expWeights s2 a2, t = 0 := by
    intro t ht
    rcases mem_zipWith_decomp _ _ _ _ ht with ⟨j, hj1, hj2, hj3⟩
    have : a2[j] = false := h2 _ (List.getElem_mem hj2)
    rw [← hj3, this]
    simp
  have hz2sum : (expWeights s2 a2).sum = 0 := List.sum_eq_zero hz2
  have hsum : (expWeights (s1 ++ s2) (a1 ++ a2)).sum = (expWeights s1 a1).sum := by
    rw [hsplit, List.sum_append, hz2sum, add_zero]
  unfold maskedSoftmax
  rw [hsum, hsplit]
  split
  · rw [List.map_append]
  · rw [List.map_append]
    congr 1
    apply List.map_congr_left
    intro t ht
    rw [hz2 t ht, zero_div]

theorem vadd_zero_of_left_zero (a b : Vec) (ha : ∀ t ∈ a, t = 0)
    (hab : b.length ≤ a.length) : vadd a b = b := by
  induction a generalizing b with
  | nil =>
      cases b with
      | nil => rfl
      | cons x xs => simp at hab
  | cons x xs ih =>
      cases b with
      | nil => rfl
      | cons y ys =>
          have hx : x = 0 := ha x (by simp)
          have hxs : ∀ t ∈ xs, t = 0 := fun t ht => ha t (by simp [ht])
          simp only [vadd, List.zipWith_cons_cons]
          rw [hx, zero_add]
          have := ih ys hxs (by simpa using hab)
          simpa [vadd] using this

theorem foldr_vadd_length (l : List Vec) (z : Vec)
    (hl : ∀ v ∈ l, v.length = z.length) :
    (l.foldr vadd z).length = z.length := by
  induction l with
  | nil => rfl
  | cons v vs ih =>
      have hv : v.length = z.length := hl v (by simp)
      have hvs : ∀ u ∈ vs, u.length = z.length := fun u hu => hl u (by simp [hu])
      simp only [List.foldr_cons]
      rw [length_vadd, ih hvs, hv, Nat.min_self]

theorem length_weightedSum (d : Nat) (w : List ℚ) (vs : List Vec)
    (hvs : ∀ v ∈ vs, v.length = d) :
    (weightedSum d w vs).length = d := by
  unfold weightedSum
  have : ∀ v ∈ List.zipWith smul w vs, v.length = (zeroVec d).length := by
    intro v hv
    rcases mem_zipWith_decomp _ _ _ _ hv with ⟨j, hj1, hj2, hj3⟩
    rw [← hj3, length_smul, hvs _ (List.getElem_mem hj2)]
    simp [zeroVec]
  have h := foldr_vadd_length _ (zeroVec d) this
  rw [h]
  simp [zeroVec]

theorem foldr_vadd_zero_weights (w : List ℚ) (vs : List Vec) (acc : Vec)
    (hw : ∀ t ∈ w, t = 0) (hvs : ∀ v ∈ vs, v.length = acc.length) :
    (List.zipWith smul w vs).foldr vadd acc = acc := by
  induction w generalizing vs with
  | nil => simp
  | cons c cs ih =>
      cases vs with
      | nil => simp
      | cons v vrest =>
          have hc : c = 0 := hw c (by simp)
          have hcs : ∀ t ∈ cs, t = 0 := fun t ht => hw t (by simp [ht])
          have hvrest : ∀ u ∈ vrest, u.length = acc.length :=
            fun u hu => hvs u (by simp [hu])
          simp only [List.zipWith_cons_cons, List.foldr_cons]
          rw [ih vrest hcs hvrest]
          apply vadd_zero_of_left_zero
          · intro t ht
            rcases List.mem_map.mp ht with ⟨u, hu1, hu2⟩
            rw [← hu2, hc, zero_mul]
          · rw [length_smul, hvs v (by simp)]

theorem weightedSum_append_zero (d : Nat) (w1 w2 : List ℚ) (vs1 vs2 : List Vec)
    (hlen : w1.length = vs1.length)
    (hw2 : ∀ t ∈ w2, t = 0)
    (hvs2 : ∀ v ∈ vs2, v.length = d) :
    weightedSum d (w1 ++ w2) (vs1 ++ vs2) = weightedSum d w1 vs1 := by
  unfold weightedSum
  rw [List.zipWith_append _ _ _ _ _ hlen, List.foldr_append]
  congr 1
  apply foldr_vadd_zero_weights w2 vs2 (zeroVec d) hw2
  intro v hv
  rw [hvs2 v hv]
  simp [zeroVec]

theorem weightedSum_zero_weights (d : Nat) (w : List ℚ) (vs : List Vec)
    (hw : ∀ t ∈ w, t = 0) (hvs : ∀ v ∈ vs, v.length = d) :
    weightedSum d w vs = zeroVec d := by
  unfold weightedSum
  apply foldr_vadd_zero_weights w vs (zeroVec d) hw
  intro v hv
  rw [hvs v hv]
  simp [zeroVec]

theorem scoreBefore_trans (s : List ℚ) (a b c : Nat)
    (hab : scoreBefore s a b) (hbc : scoreBefore s b c) :
    scoreBefore s a c := by
  unfold scoreBefore at *
  rcases hab with h1 | ⟨h1, h2⟩ <;> rcases hbc with h3 | ⟨h3, h4⟩
  · exact Or.inl (lt_trans h3 h1)
  · exact Or.inl (h3 ▸ h1)
  · exact Or.inl (by rw [h1]; exact h3)
  · exact Or.inr ⟨h1.trans h3, h2.trans h4⟩

theorem scoreBefore_total (s : List ℚ) (a b : Nat) :
    scoreBefore s a b ∨ scoreBefore s b a := by
  unfold scoreBefore
  rcases lt_trichotomy (s.getD a 0) (s.getD b 0) with h | h | h
  · exact Or.inr (Or.inl h)
  · rcases Nat.le_total a b with hab | hab
    · exact Or.inl (Or.inr ⟨h, hab⟩)
    · exact Or.inr (Or.inr ⟨h.symm, hab⟩)
  · exact Or.inl (Or.inl h)

theorem rankedExperts_perm (s : List ℚ) :
    (rankedExperts s).Perm (List.range s.length) :=
  List.perm_insertionSort _ _

theorem rankedExperts_nodup (s : List ℚ) : (rankedExperts s).Nodup :=
  (rankedExperts_perm s).nodup_iff.mpr (List.nodup_range _)

theorem mem_rankedExperts (s : List ℚ) (e : Nat) :
    e ∈ rankedExperts s ↔ e < s.length := by
  rw [(rankedExperts_perm s).mem_iff, List.mem_range]

theorem length_rankedExperts (s : List ℚ) :
    (rankedExperts s).length = s.length := by
  rw [(rankedExperts_perm s).length_eq, List.length_range]

theorem rankedExperts_sorted (s : List ℚ) :
    (rankedExperts s).Pairwise (scoreBefore s) := by
  haveI : IsTotal Nat (scoreBefore s) := ⟨scoreBefore_total s⟩
  haveI : IsTrans Nat (scoreBefore s) := ⟨scoreBefore_trans s⟩
  exact List.sorted_insertionSort (scoreBefore s) (List.range s.length)

theorem length_topKExperts (k : Nat) (s : List ℚ) :
    (topKExperts k s).length = min k s.length := by
  rw [topKExperts, List.length_take, length_rankedExperts]

theorem topKExperts_nodup (k : Nat) (s : List ℚ) : (topKExperts k s).Nodup :=
  (List.take_sublist k _).nodup (rankedExperts_nodup s)

theorem mem_topKExperts_lt (k : Nat) (s : List ℚ) (e : Nat)
    (he : e ∈ topKExperts k s) : e < s.length :=
  (mem_rankedExperts s e).mp ((List.take_sublist k _).mem he)

theorem topKExperts_ne_nil (k : Nat) (s : List ℚ) (hk : 0 < k)
    (hs : s ≠ []) : topKExperts k s ≠ [] := by
  intro h
  have := length_topKExperts k s
  rw [h] at this
  simp only [List.length_nil] at this
  have hlen : 0 < s.length := List.length_pos.mpr hs
  omega

theorem routingDenom_pos (k : Nat) (s : List ℚ) (hk : 0 < k) (hs : s ≠ []) :
    0 < routingDenom k s := by
  unfold routingDenom
  apply List.sum_pos
  · intro x hx
    rcases List.mem_map.mp hx with ⟨e, he, rfl⟩
    exact qexp_pos _
  · simp only [ne_eq, List.map_eq_nil_iff]
    exact topKExperts_ne_nil k s hk hs

theorem routingWeight_of_selected (k : Nat) (s : List ℚ) (e : Nat)
    (he : e ∈ topKExperts k s) :
    routingWeight k s e = qexp (s.getD e 0) / routingDenom k s := if_pos he

theorem routingWeight_of_unselected (k : Nat) (s : List ℚ) (e : Nat)
    (he : e ∉ topKExperts k s) : routingWeight k s e = 0 := if_neg he

theorem routingWeight_pos_of_selected (k : Nat) (s : List ℚ) (e : Nat)
    (hk : 0 < k) (hs : s ≠ []) (he : e ∈ topKExperts k s) :
    0 < routingWeight k s e := by
  rw [routingWeight_of_selected k s e he]
  exact div_pos (qexp_pos _) (routingDenom_pos k s hk hs)

theorem routingWeight_sum_selected (k : Nat) (s : List ℚ)
    (hk : 0 < k) (hs : s ≠ []) :
    ((topKExperts k s).map (routingWeight k s)).sum = 1 := by
  have hZ : routingDenom k s ≠ 0 := ne_of_gt (routingDenom_pos k s hk hs)
  have h1 : (topKExperts k s).map (routingWeight k s) =
      ((topKExperts k s).map (fun e => qexp (s.getD e 0))).map
        (fun t => t / routingDenom k s) := by
    rw [List.map_map]
    apply List.map_congr_left
    intro e he
    exact routingWeight_of_selected k s e he
  rw [h1, sum_map_div]
  exact div_self hZ

theorem routingWeight_nonzero_iff (k : Nat) (s : List ℚ) (e : Nat)
    (hk : 0 < k) (hs : s ≠ []) :
    routingWeight k s e ≠ 0 ↔ e ∈ topKExperts k s := by
  constructor
  · intro h
    by_contra hmem
    exact h (routingWeight_of_unselected k s e hmem)
  · intro hmem
    exact ne_of_gt (routingWeight_pos_of_selected k s e hk hs hmem)

theorem filter_mem_length (n : Nat) (l : List Nat) (hn : l.Nodup)
    (hb : ∀ e ∈ l, e < n) :
    ((List.range n).filter (fun e => decide (e ∈ l))).length = l.length := by
  have hperm : ((List.range n).filter (fun e => decide (e ∈ l))).Perm l := by
    rw [List.perm_ext_iff_of_nodup ((List.nodup_range n).filter _) hn]
    intro a
    rw [List.mem_filter, List.mem_range, decide_eq_true_eq]
    constructor
    · exact fun h => h.2
    · exact fun h => ⟨hb a h, h⟩
  exact hperm.length_eq

theorem routingWeight_nonzero_count (k : Nat) (s : List ℚ)
    (hk : 0 < k) (hkn : k ≤ s.length) :
    ((List.range s.length).filter
      (fun e => decide (routingWeight k s e ≠ 0))).length = k := by
  have hs : s ≠ [] := by
    intro h
    rw [h] at hkn
    simp at hkn
    omega
  have hfc : (List.range s.length).filter
      (fun e => decide (routingWeight k s e ≠ 0)) =
      (List.range s.length).filter (fun e => decide (e ∈ topKExperts k s)) := by
    apply List.filter_congr
    intro x hx
    simp only [decide_eq_decide]
    exact routingWeight_nonzero_iff k s x hk hs
  rw [hfc, filter_mem_length s.length (topKExperts k s) (topKExperts_nodup k s)
    (fun e he => mem_topKExperts_lt k s e he)]
  rw [length_topKExperts]
  omega

theorem topK_tie_prefers_lower (k : Nat) (s : List ℚ) (i j : Nat)
    (hi : i < s.length) (hij : i < j)
    (heq : s.getD i 0 = s.getD j 0)
    (hj : j ∈ topKExperts k s) : i ∈ topKExperts k s := by
  by_contra hnot
  have hmem : i ∈ rankedExperts s := (mem_rankedExperts s i).mpr hi
  have hsplit : rankedExperts s =
      topKExperts k s ++ (rankedExperts s).drop k := by
    rw [topKExperts, List.take_append_drop]
  have hidrop : i ∈ (rankedExperts s).drop k := by
    rw [hsplit] at hmem
    rcases List.mem_append.mp hmem with h | h
    · exact absurd h hnot
    · exact h
  have hpw := rankedExperts_sorted s
  rw [hsplit] at hpw
  rcases List.pairwise_append.mp hpw with ⟨_, _, hcross⟩
  have hji := hcross j hj i hidrop
  unfold scoreBefore at hji
  rcases hji with h | ⟨h1, h2⟩
  · rw [heq] at h
    exact lt_irrefl _ h
  · omega

theorem length_rotateVec (c s x : Vec) : (rotateVec c s x).length = x.length := by
  simp [rotateVec]

theorem rotateVec_even (c s x : Vec) (i : Nat) (h : 2 * i < x.length) :
    (rotateVec c s x).getD (2 * i) 0 =
      x.getD (2 * i) 0 * c.getD i 0 - x.getD (2 * i + 1) 0 * s.getD i 0 := by
  have hlt : 2 * i < (rotateVec c s x).length := by rw [length_rotateVec]; exact h
  rw [List.getD_eq_getElem _ _ hlt]
  unfold rotateVec
  rw [List.getElem_map, List.getElem_range]
  have hmod : 2 * i % 2 = 0 := Nat.mul_mod_right 2 i
  have hdiv : 2 * i / 2 = i := Nat.mul_div_cancel_left i (by omega)
  rw [if_pos hmod, hdiv]

theorem rotateVec_odd (c s x : Vec) (i : Nat) (h : 2 * i + 1 < x.length) :
    (rotateVec c s x).getD (2 * i + 1) 0 =
      x.getD (2 * i) 0 * s.getD i 0 + x.getD (2 * i + 1) 0 * c.getD i 0 := by
  have hlt : 2 * i + 1 < (rotateVec c s x).length := by rw [length_rotateVec]; exact h
  rw [List.getD_eq_getElem _ _ hlt]
  unfold rotateVec
  rw [List.getElem_map, List.getElem_range]
  have hmod : (2 * i + 1) % 2 = 1 := by omega
  have hdiv : (2 * i + 1) / 2 = i := by omega
  have hsub : 2 * i + 1 - 1 = 2 * i := by omega
  rw [if_neg (by omega), hdiv, hsub]

theorem length_allowedKeys (pads : List Bool) (total pos : Nat) :
    (allowedKeys pads total pos).length = total := by
  simp [allowedKeys]

theorem allowedKeys_getElem (pads : List Bool) (total pos j : Nat)
    (_hj : j < total) (hj2 : j < (allowedKeys pads total pos).length) :
    (allowedKeys pads total pos)[j] =
      (decide (j ≤ pos) && pads.getD j false) := by
  unfold allowedKeys
  rw [List.getElem_map, List.getElem_range]

theorem length_headCol (K : List (List Vec)) (h : Nat) :
    (headCol K h).length = K.length := by
  simp [headCol]

theorem headCol_wf (V : List (List Vec)) (nh hd h : Nat) (hh : h < nh)
    (hwf : ∀ e ∈ V, e.length = nh ∧ ∀ v ∈ e, v.length = hd) :
    ∀ v ∈ headCol V h, v.length = hd := by
  intro v hv
  rcases List.mem_map.mp hv with ⟨e, he, rfl⟩
  rcases hwf e he with ⟨hel, hev⟩
  have hlt : h < e.length := by omega
  rw [List.getD_eq_getElem _ _ hlt]
  exact hev _ (List.getElem_mem hlt)

theorem matVec_zero (W : Mat) (z : Vec) (hz : ∀ t ∈ z, t = 0) :
    matVec W z = zeroVec W.length := by
  unfold matVec zeroVec
  rw [List.eq_replicate_iff]
  constructor
  · simp
  · intro b hb
    rcases List.mem_map.mp hb with ⟨r, hr, rfl⟩
    exact dot_zero_right r z hz

theorem ifaAttnRow_sum_one (M : InnerFuncAttn) (pads : List Bool)
    (K : List (List Vec)) (pos : Nat) (q : Vec) (h j : Nat)
    (hj : j < K.length) (hjpos : j ≤ pos) (hpad : pads.getD j false = true) :
    (ifaAttnRow M pads K pos q h).sum = 1 := by
  unfold ifaAttnRow
  have hs : j < ((headCol K h).map (fun kv => dot q kv * M.scale)).length := by
    rw [List.length_map, length_headCol]; exact hj
  have ha : j < (allowedKeys pads K.length pos).length := by
    rw [length_allowedKeys]; exact hj
  apply maskedSoftmax_sum_one _ _ j hs ha
  rw [allowedKeys_getElem pads K.length pos j hj ha, hpad,
    decide_eq_true hjpos, Bool.and_self]

theorem ifaAttnRow_zero_disallowed (M : InnerFuncAttn) (pads : List Bool)
    (K : List (List Vec)) (pos : Nat) (q : Vec) (h j : Nat)
    (hj : j < K.length) (hdis : pos < j ∨ pads.getD j false = false) :
    (ifaAttnRow M pads K pos q h).getD j 0 = 0 := by
  unfold ifaAttnRow
  have hs : j < ((headCol K h).map (fun kv => dot q kv * M.scale)).length := by
    rw [List.length_map, length_headCol]; exact hj
  have ha : j < (allowedKeys pads K.length pos).length := by
    rw [length_allowedKeys]; exact hj
  apply maskedSoftmax_zero_of_not_allowed _ _ j hs ha
  rw [allowedKeys_getElem pads K.length pos j hj ha]
  rcases hdis with h1 | h1
  · rw [decide_eq_false (Nat.not_le_of_lt h1), Bool.false_and]
  · rw [h1, Bool.and_false]

theorem allowedKeys_all_false (pads : List Bool) (total pos : Nat)
    (hall : ∀ j, j < total → (decide (j ≤ pos) && pads.getD j false) = false) :
    ∀ b ∈ allowedKeys pads total pos, b = false := by
  intro b hb
  rcases List.mem_map.mp hb with ⟨j, hj, rfl⟩
  exact hall j (List.mem_range.mp hj)

theorem ifaAttnRow_all_zero (M : InnerFuncAttn) (pads : List Bool)
    (K : List (List Vec)) (pos : Nat) (q : Vec) (h : Nat)
    (hall : ∀ j, j < K.length → (decide (j ≤ pos) && pads.getD j false) = false) :
    ∀ t ∈ ifaAttnRow M pads K pos q h, t = 0 := by
  unfold ifaAttnRow
  exact maskedSoftmax_all_zero _ _ (allowedKeys_all_false pads K.length pos hall)

theorem ifaAttendToken_masked_zero (M : InnerFuncAttn) (pads : List Bool)
    (K V : List (List Vec)) (pos : Nat) (x : Vec)
    (hall : ∀ j, j < K.length → (decide (j ≤ pos) && pads.getD j false) = false)
    (hVwf : ∀ e ∈ V, e.length = M.n_heads ∧ ∀ v ∈ e, v.length = M.headDim) :
    ifaAttendToken M pads K V pos x = zeroVec M.Wo.length := by
  unfold ifaAttendToken
  apply matVec_zero
  intro t ht
  rcases List.mem_flatten.mp ht with ⟨l, hl, htl⟩
  rcases List.mem_map.mp hl with ⟨h, hh, rfl⟩
  have hhlt : h < M.n_heads := List.mem_range.mp hh
  have hrow := ifaAttnRow_all_zero M pads K pos ((tokenQuery M pos x).getD h []) h hall
  have hws := weightedSum_zero_weights M.headDim _ (headCol V h) hrow
    (headCol_wf V M.n_heads M.headDim h hhlt hVwf)
  rw [hws] at htl
  exact (List.mem_replicate.mp htl).2

theorem zipWith_congr_mem {α β γ : Type} (f g : α → β → γ) (l : List α)
    (m : List β) (h : ∀ a ∈ l, ∀ b ∈ m, f a b = g a b) :
    List.zipWith f l m = List.zipWith g l m := by
  induction l generalizing m with
  | nil => simp
  | cons a as ih =>
      cases m with
      | nil => simp
      | cons b bs =>
          simp only [List.zipWith_cons_cons]
          rw [h a (by simp) b (by simp), ih bs]
          intro a2 ha2 b2 hb2
          exact h a2 (by simp [ha2]) b2 (by simp [hb2])

/-- Causal prefix property: a query at absolute position `pos` computes the
same attention output whether the key/value tensors hold all positions or
only the causally visible prefix `0..pos` — every later key is masked to
exactly zero weight, so it contributes nothing (C1's core fact). -/
theorem ifaAttendToken_take (M : InnerFuncAttn) (pads : List Bool)
    (K V : List (List Vec)) (pos : Nat) (x : Vec)
    (hcut : pos + 1 ≤ K.length) (hKV : K.length = V.length)
    (hVwf : ∀ e ∈ V, e.length = M.n_heads ∧ ∀ v ∈ e, v.length = M.headDim) :
    ifaAttendToken M pads K V pos x =
      ifaAttendToken M pads (K.take (pos + 1)) (V.take (pos + 1)) pos x := by
  unfold ifaAttendToken
  congr 1
  congr 1
  apply List.map_congr_left
  intro h hh
  have hhlt : h < M.n_heads := List.mem_range.mp hh
  set q := (tokenQuery M pos x).getD h [] with hq
  -- decompose the scores over the key axis at the causal cut
  have hKsplit : K = K.take (pos + 1) ++ K.drop (pos + 1) :=
    (List.take_append_drop _ _).symm
  have hKtlen : (K.take (pos + 1)).length = pos + 1 := by
    rw [List.length_take]; omega
  have hVtlen : (V.take (pos + 1)).length = pos + 1 := by
    rw [List.length_take]; omega
  -- the attention row over the full keys = row over the prefix ++ zeros
  have hsc : (headCol K h).map (fun kv => dot q kv * M.scale) =
      (headCol (K.take (pos + 1)) h).map (fun kv => dot q kv * M.scale) ++
        (headCol (K.drop (pos + 1)) h).map (fun kv => dot q kv * M.scale) := by
    conv_lhs => rw [hKsplit]
    unfold headCol
    rw [List.map_append, List.map_append]
  have hal : allowedKeys pads K.length pos =
      allowedKeys pads (pos + 1) pos ++
        (List.range' (pos + 1) (K.length - (pos + 1))).map
          (fun j => decide (j ≤ pos) && pads.getD j false) := by
    unfold allowedKeys
    rw [List.range_eq_range']
    rw [show List.range' 0 K.length = List.range' 0 (pos + 1) ++
        List.range' (pos + 1) (K.length - (pos + 1)) by
      have := List.range'_append 0 (pos + 1) (K.length - (pos + 1)) 1
      simp only [Nat.one_mul, Nat.zero_add] at this
      rw [this]
      congr 1
      omega]
    rw [List.map_append, List.range_eq_range']
  have htailfalse : ∀ b ∈ (List.range' (pos + 1) (K.length - (pos + 1))).map
      (fun j => decide (j ≤ pos) && pads.getD j false), b = false := by
    intro b hb
    rcases List.mem_map.mp hb with ⟨j, hj, rfl⟩
    have := List.mem_range'_1.mp hj
    simp [Nat.not_le_of_lt (by omega : pos < j)]
  have hlen1 : ((headCol (K.take (pos + 1)) h).map
      (fun kv => dot q kv * M.scale)).length = pos + 1 := by
    rw [List.length_map, length_headCol, hKtlen]
  have hlen1b : (allowedKeys pads (pos + 1) pos).length = pos + 1 :=
    length_allowedKeys _ _ _
  -- rewrite both rows
  show weightedSum M.headDim (ifaAttnRow M pads K pos q h) (headCol V h) =
      weightedSum M.headDim (ifaAttnRow M pads (K.take (pos + 1)) pos q h)
        (headCol (V.take (pos + 1)) h)
  unfold ifaAttnRow
  rw [hsc, hal, maskedSoftmax_append_masked _ _ _ _ (by rw [hlen1, hlen1b])
    htailfalse]
  have hVsplit : headCol V h =
      headCol (V.take (pos + 1)) h ++ headCol (V.drop (pos + 1)) h := by
    conv_lhs => rw [(List.take_append_drop (pos + 1) V).symm]
    unfold headCol
    rw [List.map_append]
  rw [hVsplit]
  have hrowlen : (maskedSoftmax
      ((headCol (K.take (pos + 1)) h).map (fun kv => dot q kv * M.scale))
      (allowedKeys pads (pos + 1) pos)).length = pos + 1 := by
    rw [length_maskedSoftmax, hlen1, hlen1b]
    omega
  rw [weightedSum_append_zero M.headDim _ _ _ _
    (by rw [hrowlen, length_headCol, hVtlen])
    (by
      intro t ht
      rcases List.mem_map.mp ht with ⟨u, hu, rfl⟩
      rfl)
    (by
      intro v hv
      refine headCol_wf (V.drop (pos + 1)) M.n_heads M.headDim h hhlt ?_ v hv
      intro e he
      exact hVwf e ((List.drop_sublist _ _).mem he))]
  -- finally the prefix row equals the row computed from the taken keys
  congr 1
  rw [hKtlen]

theorem innerContribution_length (M : InnerFuncAttn) (x : Vec)
    (hpool : ∀ v ∈ M.innerPool, v.length = M.d_model) :
    (innerContribution M x).length = M.d_model :=
  length_weightedSum _ _ _ hpool

theorem heads_mul_headDim_le (M : InnerFuncAttn) :
    M.n_heads * M.headDim ≤ M.d_model := by
  rw [Nat.mul_comm]
  exact Nat.div_mul_le_self M.d_model M.n_heads

theorem tokenVal_length (M : InnerFuncAttn) (x : Vec) :
    (tokenVal M x).length = M.n_heads := by
  unfold tokenVal
  rw [List.length_zipWith, length_chunks, length_chunks, Nat.min_self]

theorem tokenVal_wf (M : InnerFuncAttn) (x : Vec) (hwf : IFAWf M) :
    (tokenVal M x).length = M.n_heads ∧
      ∀ v ∈ tokenVal M x, v.length = M.headDim := by
  refine ⟨tokenVal_length M x, ?_⟩
  intro v hv
  rcases mem_zipWith_decomp _ _ _ _ hv with ⟨j, hj1, hj2, hj3⟩
  rcases hwf with ⟨_, _, hWv, _, hpool⟩
  have h1 : (chunks M.n_heads M.headDim (matVec M.Wv x))[j].length = M.headDim := by
    apply chunks_mem_length M.n_heads M.headDim _ _ _ (List.getElem_mem hj1)
    rw [length_matVec, hWv]
  have h2 : (chunks M.n_heads M.headDim (innerContribution M x))[j].length
      = M.headDim := by
    apply chunks_mem_length M.n_heads M.headDim _ _ _ (List.getElem_mem hj2)
    rw [innerContribution_length M x hpool]
    exact heads_mul_headDim_le M
  rw [← hj3, length_vadd, h1, h2, Nat.min_self]

theorem ifaChunk_fst_length (M : InnerFuncAttn) (pads : List Bool)
    (c : KVCache) (p : Nat) (xs : List Vec) :
    (ifaChunk M pads c p xs).1.length = xs.length := by
  unfold ifaChunk
  rw [List.length_zipWith, List.length_range', Nat.min_self]

theorem ifaChunk_keys_length (M : InnerFuncAttn) (pads : List Bool)
    (c : KVCache) (p : Nat) (xs : List Vec) :
    (ifaChunk M pads c p xs).2.keys.length = c.keys.length + xs.length := by
  unfold ifaChunk
  simp [List.length_zipWith, List.length_range']

theorem ifaChunk_vals_length (M : InnerFuncAttn) (pads : List Bool)
    (c : KVCache) (p : Nat) (xs : List Vec) :
    (ifaChunk M pads c p xs).2.vals.length = c.vals.length + xs.length := by
  unfold ifaChunk
  simp

theorem ifaChunk_cacheWF (M : InnerFuncAttn) (pads : List Bool)
    (c : KVCache) (p : Nat) (xs : List Vec) (hwf : IFAWf M)
    (hc : CacheWF M c p) :
    CacheWF M (ifaChunk M pads c p xs).2 (p + xs.length) := by
  rcases hc with ⟨hk, hv, hentries⟩
  refine ⟨by rw [ifaChunk_keys_length, hk], by rw [ifaChunk_vals_length, hv], ?_⟩
  intro e he
  have : (ifaChunk M pads c p xs).2.vals = c.vals ++ xs.map (tokenVal M) := rfl
  rw [this] at he
  rcases List.mem_append.mp he with h | h
  · exact hentries e h
  · rcases List.mem_map.mp h with ⟨x, hx, rfl⟩
    rcases tokenVal_wf M x hwf with ⟨h1, h2⟩
    exact ⟨h1, h2⟩

/-- Chunk decomposition of the IFA forward: processing `xs ++ ys` in one call
equals processing `xs`, then processing `ys` from the updated cache — both
the outputs and the final cache coincide.  This is the heart of the
full-sequence vs. incremental equivalence (C1) and of cache append-only
behavior (C2). -/
theorem ifaChunk_append (M : InnerFuncAttn) (pads : List Bool) (cache : KVCache)
    (p : Nat) (xs ys : List Vec) (hwf : IFAWf M) (hc : CacheWF M cache p) :
    ifaChunk M pads cache p (xs ++ ys) =
      ((ifaChunk M pads cache p xs).1 ++
         (ifaChunk M pads (ifaChunk M pads cache p xs).2 (p + xs.length) ys).1,
       (ifaChunk M pads (ifaChunk M pads cache p xs).2 (p + xs.length) ys).2) := by
  rcases hc with ⟨hck, hcv, hcentries⟩
  have hrange : List.range' p (xs ++ ys).length =
      List.range' p xs.length ++ List.range' (p + xs.length) ys.length := by
    rw [List.length_append]
    have h := List.range'_append p xs.length ys.length 1
    simp only [Nat.one_mul] at h
    rw [h, Nat.add_comm ys.length xs.length]
  have hrlen : (List.range' p xs.length).length = xs.length :=
    List.length_range' _ _ _
  have hnewK : List.zipWith (fun pos2 x2 => tokenKey M pos2 x2)
      (List.range' p (xs ++ ys).length) (xs ++ ys) =
      List.zipWith (fun pos2 x2 => tokenKey M pos2 x2)
        (List.range' p xs.length) xs ++
      List.zipWith (fun pos2 x2 => tokenKey M pos2 x2)
        (List.range' (p + xs.length) ys.length) ys := by
    rw [hrange]
    exact List.zipWith_append _ _ _ _ _ hrlen
  have hnewV : (xs ++ ys).map (fun x2 => tokenVal M x2) =
      xs.map (fun x2 => tokenVal M x2) ++ ys.map (fun x2 => tokenVal M x2) :=
    List.map_append _ _ _
  -- abbreviations
  set newKxs := List.zipWith (fun pos2 x2 => tokenKey M pos2 x2)
    (List.range' p xs.length) xs with hKxs
  set newKys := List.zipWith (fun pos2 x2 => tokenKey M pos2 x2)
    (List.range' (p + xs.length) ys.length) ys with hKys
  set newVxs := xs.map (fun x2 => tokenVal M x2) with hVxs
  set newVys := ys.map (fun x2 => tokenVal M x2) with hVys
  have hKxslen : newKxs.length = xs.length := by
    rw [hKxs, List.length_zipWith, hrlen, Nat.min_self]
  have hVxslen : newVxs.length = xs.length := by rw [hVxs, List.length_map]
  have hVwfTot : ∀ e ∈ (cache.vals ++ newVxs) ++ newVys,
      e.length = M.n_heads ∧ ∀ v ∈ e, v.length = M.headDim := by
    intro e he
    rcases List.mem_append.mp he with h | h
    · rcases List.mem_append.mp h with h2 | h2
      · exact hcentries e h2
      · rcases List.mem_map.mp h2 with ⟨x, hx, rfl⟩
        exact tokenVal_wf M x hwf
    · rcases List.mem_map.mp h with ⟨x, hx, rfl⟩
      exact tokenVal_wf M x hwf
  unfold ifaChunk
  rw [hnewK, hnewV, hrange]
  rw [← hKxs, ← hKys, ← hVxs, ← hVys]
  rw [← List.append_assoc cache.keys newKxs newKys,
    ← List.append_assoc cache.vals newVxs newVys]
  rw [List.zipWith_append _ _ _ _ _ hrlen]
  rw [Prod.mk.injEq]
  refine ⟨?_, rfl⟩
  congr 1
  apply zipWith_congr_mem
  intro pos hpos x hx
  have hposb := List.mem_range'_1.mp hpos
  have hcut1 : pos + 1 ≤ ((cache.keys ++ newKxs) ++ newKys).length := by
    rw [List.length_append, List.length_append, hck, hKxslen]
    omega
  have hKV1 : ((cache.keys ++ newKxs) ++ newKys).length =
      ((cache.vals ++ newVxs) ++ newVys).length := by
    rw [List.length_append, List.length_append, List.length_append,
      List.length_append, hck, hcv, hKxslen, hVxslen]
    rw [hKys, hVys, List.length_zipWith, List.length_range', List.length_map,
      Nat.min_self]
  have hcut2 : pos + 1 ≤ (cache.keys ++ newKxs).length := by
    rw [List.length_append, hck, hKxslen]
    omega
  have hKV2 : (cache.keys ++ newKxs).length = (cache.vals ++ newVxs).length := by
    rw [List.length_append, List.length_append, hck, hcv, hKxslen, hVxslen]
  have hVwf1 : ∀ e ∈ cache.vals ++ newVxs,
      e.length = M.n_heads ∧ ∀ v ∈ e, v.length = M.headDim := by
    intro e he
    exact hVwfTot e (List.mem_append.mpr (Or.inl he))
  have htakeK : ((cache.keys ++ newKxs) ++ newKys).take (pos + 1) =
      (cache.keys ++ newKxs).take (pos + 1) :=
    List.take_append_of_le_length hcut2
  have htakeV : ((cache.vals ++ newVxs) ++ newVys).take (pos + 1) =
      (cache.vals ++ newVxs).take (pos + 1) :=
    List.take_append_of_le_length (hKV2 ▸ hcut2)
  rw [ifaAttendToken_take M pads _ _ pos x hcut1 hKV1 hVwfTot]
  rw [ifaAttendToken_take M pads (cache.keys ++ newKxs) (cache.vals ++ newVxs)
    pos x hcut2 hKV2 hVwf1]
  rw [htakeK, htakeV]

theorem layerChunk_fst_length (L : DecoderLayer) (pads : List Bool)
    (c : KVCache) (p : Nat) (xs : List Vec) :
    (layerChunk L pads c p xs).1.length = xs.length := by
  unfold layerChunk
  simp only [List.length_zipWith, List.length_map, ifaChunk_fst_length]
  omega

theorem layerChunk_snd_eq (L : DecoderLayer) (pads : List Bool)
    (c : KVCache) (p : Nat) (xs : List Vec) :
    (layerChunk L pads c p xs).2 =
      (ifaChunk L.attn pads c p (xs.map (fun x => normQ L.g1 x))).2 := rfl

theorem layerChunk_cacheWF (L : DecoderLayer) (pads : List Bool)
    (c : KVCache) (p : Nat) (xs : List Vec) (hwf : IFAWf L.attn)
    (hc : CacheWF L.attn c p) :
    CacheWF L.attn (layerChunk L pads c p xs).2 (p + xs.length) := by
  rw [layerChunk_snd_eq]
  have := ifaChunk_cacheWF L.attn pads c p (xs.map (fun x => normQ L.g1 x)) hwf hc
  rwa [List.length_map] at this

theorem layerChunk_append (L : DecoderLayer) (pads : List Bool) (cache : KVCache)
    (p : Nat) (xs ys : List Vec) (hwf : IFAWf L.attn) (hc : CacheWF L.attn cache p) :
    layerChunk L pads cache p (xs ++ ys) =
      ((layerChunk L pads cache p xs).1 ++
         (layerChunk L pads (layerChunk L pads cache p xs).2 (p + xs.length) ys).1,
       (layerChunk L pads (layerChunk L pads cache p xs).2 (p + xs.length) ys).2) := by
  have hmap : (xs ++ ys).map (fun x => normQ L.g1 x) =
      xs.map (fun x => normQ L.g1 x) ++ ys.map (fun x => normQ L.g1 x) :=
    List.map_append _ _ _
  have hchunk := ifaChunk_append L.attn pads cache p
    (xs.map (fun x => normQ L.g1 x)) (ys.map (fun x => normQ L.g1 x)) hwf hc
  rw [List.length_map] at hchunk
  have halen : (ifaChunk L.attn pads cache p
      (xs.map (fun x => normQ L.g1 x))).1.length = xs.length := by
    rw [ifaChunk_fst_length, List.length_map]
  have h1len : (List.zipWith vadd xs
      (ifaChunk L.attn pads cache p (xs.map (fun x => normQ L.g1 x))).1).length
      = xs.length := by
    rw [List.length_zipWith, halen, Nat.min_self]
  unfold layerChunk
  rw [hmap, hchunk]
  have hsplitres : List.zipWith vadd (xs ++ ys)
      ((ifaChunk L.attn pads cache p (xs.map (fun x => normQ L.g1 x))).1 ++
        (ifaChunk L.attn pads
          (ifaChunk L.attn pads cache p (xs.map (fun x => normQ L.g1 x))).2
          (p + xs.length) (ys.map (fun x => normQ L.g1 x))).1) =
      List.zipWith vadd xs
        (ifaChunk L.attn pads cache p (xs.map (fun x => normQ L.g1 x))).1 ++
      List.zipWith vadd ys
        (ifaChunk L.attn pads
          (ifaChunk L.attn pads cache p (xs.map (fun x => normQ L.g1 x))).2
          (p + xs.length) (ys.map (fun x => normQ L.g1 x))).1 :=
    List.zipWith_append _ _ _ _ _ halen.symm
  rw [hsplitres, List.map_append]
  rw [List.zipWith_append _ _ _ _ _ (by rw [h1len, List.length_map, h1len])]

theorem runLayers_fst_length (Ls : List DecoderLayer) (pads : List Bool)
    (cs : List KVCache) (p : Nat) (xs : List Vec) :
    (runLayers Ls pads cs p xs).1.length = xs.length := by
  induction Ls generalizing cs xs with
  | nil => rfl
  | cons L rest ih =>
      unfold runLayers
      rw [ih, layerChunk_fst_length]

theorem runLayers_nil_input (Ls : List DecoderLayer) (pads : List Bool)
    (cs : List KVCache) (p : Nat) (hlen : cs.length = Ls.length) :
    runLayers Ls pads cs p [] = ([], cs) := by
  induction Ls generalizing cs with
  | nil =>
      cases cs with
      | nil => rfl
      | cons c cs2 => simp at hlen
  | cons L rest ih =>
      cases cs with
      | nil => simp at hlen
      | cons c cs2 =>
          have hlen2 : cs2.length = rest.length := by
            simp at hlen
            exact hlen
          unfold runLayers
          have hlc : layerChunk L pads c p [] = ([], c) := by
            unfold layerChunk ifaChunk
            simp
          simp only [List.headD_cons, List.tail_cons, hlc]
          rw [ih cs2 hlen2]

theorem runLayers_append (Ls : List DecoderLayer) (pads : List Bool)
    (cs : List KVCache) (p : Nat) (xs ys : List Vec)
    (hwf : ∀ L ∈ Ls, IFAWf L.attn) (hc : CachesWF Ls cs p) :
    runLayers Ls pads cs p (xs ++ ys) =
      ((runLayers Ls pads cs p xs).1 ++
         (runLayers Ls pads (runLayers Ls pads cs p xs).2 (p + xs.length) ys).1,
       (runLayers Ls pads (runLayers Ls pads cs p xs).2 (p + xs.length) ys).2) := by
  induction Ls generalizing cs xs ys with
  | nil => rfl
  | cons L rest ih =>
      rcases List.forall₂_cons_left_iff.mp hc with ⟨c, cs2, hcL, hcrest, rfl⟩
      have hwfL : IFAWf L.attn := hwf L (by simp)
      have hwfrest : ∀ L2 ∈ rest, IFAWf L2.attn :=
        fun L2 h2 => hwf L2 (by simp [h2])
      have hlo1 : (layerChunk L pads c p xs).1.length = xs.length :=
        layerChunk_fst_length _ _ _ _ _
      unfold runLayers
      simp only [List.headD_cons, List.tail_cons]
      rw [layerChunk_append L pads c p xs ys hwfL hcL]
      rw [ih cs2 ((layerChunk L pads c p xs).1)
        ((layerChunk L pads ((layerChunk L pads c p xs).2) (p + xs.length) ys).1)
        hwfrest hcrest, hlo1]
      have hfirst : runLayers (L :: rest) pads (c :: cs2) p xs =
          ((runLayers rest pads cs2 p (layerChunk L pads c p xs).1).1,
           (layerChunk L pads c p xs).2 ::
             (runLayers rest pads cs2 p (layerChunk L pads c p xs).1).2) := rfl
      rw [hfirst]
      simp only [List.headD_cons, List.tail_cons]

theorem runLayers_cachesWF (Ls : List DecoderLayer) (pads : List Bool)
    (cs : List KVCache) (p : Nat) (xs : List Vec)
    (hwf : ∀ L ∈ Ls, IFAWf L.attn) (hc : CachesWF Ls cs p) :
    CachesWF Ls (runLayers Ls pads cs p xs).2 (p + xs.length) := by
  induction Ls generalizing cs xs with
  | nil => exact List.Forall₂.nil
  | cons L rest ih =>
      rcases List.forall₂_cons_left_iff.mp hc with ⟨c, cs2, hcL, hcrest, rfl⟩
      have hwfL : IFAWf L.attn := hwf L (by simp)
      have hwfrest : ∀ L2 ∈ rest, IFAWf L2.attn :=
        fun L2 h2 => hwf L2 (by simp [h2])
      unfold runLayers
      simp only [List.headD_cons, List.tail_cons]
      apply List.Forall₂.cons
      · exact layerChunk_cacheWF L pads c p xs hwfL hcL
      · have := ih cs2 ((layerChunk L pads c p xs).1) hwfrest hcrest
        rwa [layerChunk_fst_length] at this

theorem stackChunk_fst_length (W : DecoderStack) (pads : List Bool)
    (cs : List KVCache) (p : Nat) (ts : List Nat) :
    (stackChunk W pads cs p ts).1.length = ts.length := by
  unfold stackChunk
  rw [List.length_map, runLayers_fst_length, List.length_map]

theorem stackChunk_nil (W : DecoderStack) (pads : List Bool)
    (cs : List KVCache) (p : Nat) (hlen : cs.length = W.layers.length) :
    stackChunk W pads cs p [] = ([], cs) := by
  unfold stackChunk
  rw [show ([] : List Nat).map (fun t => W.embed.getD t []) = [] from rfl,
    runLayers_nil_input W.layers pads cs p hlen]
  rfl

theorem stackChunk_append (W : DecoderStack) (pads : List Bool)
    (cs : List KVCache) (p : Nat) (ts us : List Nat)
    (hwf : StackWF W) (hc : CachesWF W.layers cs p) :
    stackChunk W pads cs p (ts ++ us) =
      ((stackChunk W pads cs p ts).1 ++
         (stackChunk W pads (stackChunk W pads cs p ts).2 (p + ts.length) us).1,
       (stackChunk W pads (stackChunk W pads cs p ts).2 (p + ts.length) us).2) := by
  unfold stackChunk
  rw [List.map_append]
  rw [runLayers_append W.layers pads cs p _ _ hwf hc]
  rw [List.length_map, List.map_append]

theorem stackChunk_cachesWF (W : DecoderStack) (pads : List Bool)
    (cs : List KVCache) (p : Nat) (ts : List Nat)
    (hwf : StackWF W) (hc : CachesWF W.layers cs p) :
    CachesWF W.layers (stackChunk W pads cs p ts).2 (p + ts.length) := by
  unfold stackChunk
  have := runLayers_cachesWF W.layers pads cs p
    (ts.map (fun t => W.embed.getD t [])) hwf hc
  rwa [List.length_map] at this

theorem emptyCaches_wf (Ls : List DecoderLayer) :
    CachesWF Ls (emptyCaches Ls.length) 0 := by
  induction Ls with
  | nil => exact List.Forall₂.nil
  | cons L rest ih =>
      unfold emptyCaches at *
      rw [List.length_cons, List.replicate_succ]
      exact List.Forall₂.cons
        ⟨rfl, rfl, by intro e he; simp [KVCache.emptyCache] at he⟩ ih

/-- The incremental (one token per step, cache carried forward) run of the
Decoder Stack computes exactly the full-sequence run: same logits at every
position and the same final caches (C1's core). -/
theorem runIncremental_eq_stackChunk (W : DecoderStack) (pads : List Bool)
    (hwf : StackWF W) (ts : List Nat) (cs : List KVCache) (p : Nat)
    (hc : CachesWF W.layers cs p) :
    runIncremental W pads cs p ts = stackChunk W pads cs p ts := by
  induction ts generalizing cs p with
  | nil =>
      have hlen : cs.length = W.layers.length :=
        (List.Forall₂.length_eq hc).symm
      rw [stackChunk_nil W pads cs p hlen]
      rfl
  | cons t rest ih =>
      have hc1 : CachesWF W.layers (stackChunk W pads cs p [t]).2 (p + 1) :=
        stackChunk_cachesWF W pads cs p [t] hwf hc
      unfold runIncremental
      rw [ih (stackChunk W pads cs p [t]).2 (p + 1) hc1]
      have happ := stackChunk_append W pads cs p [t] rest hwf hc
      rw [List.singleton_append] at happ
      simp only [List.length_singleton] at happ
      rw [happ]

theorem runIncremental_append (W : DecoderStack) (pads : List Bool)
    (cs : List KVCache) (p : Nat) (as2 bs : List Nat) :
    runIncremental W pads cs p (as2 ++ bs) =
      ((runIncremental W pads cs p as2).1 ++
         (runIncremental W pads (runIncremental W pads cs p as2).2
           (p + as2.length) bs).1,
       (runIncremental W pads (runIncremental W pads cs p as2).2
           (p + as2.length) bs).2) := by
  induction as2 generalizing cs p with
  | nil =>
      simp only [List.nil_append, List.length_nil, Nat.add_zero]
      rfl
  | cons a rest ih =>
      have hL : runIncremental W pads cs p ((a :: rest) ++ bs) =
          ((stackChunk W pads cs p [a]).1 ++
            (runIncremental W pads (stackChunk W pads cs p [a]).2 (p + 1)
              (rest ++ bs)).1,
           (runIncremental W pads (stackChunk W pads cs p [a]).2 (p + 1)
              (rest ++ bs)).2) := rfl
      have hR : runIncremental W pads cs p (a :: rest) =
          ((stackChunk W pads cs p [a]).1 ++
            (runIncremental W pads (stackChunk W pads cs p [a]).2 (p + 1)
              rest).1,
           (runIncremental W pads (stackChunk W pads cs p [a]).2 (p + 1)
              rest).2) := rfl
      have hpos : p + 1 + rest.length = p + (rest.length + 1) := by omega
      rw [hL, hR, ih (stackChunk W pads cs p [a]).2 (p + 1)]
      simp only [List.length_cons]
      rw [List.append_assoc, hpos]

theorem runLayers_snd_length (Ls : List DecoderLayer) (pads : List Bool)
    (cs : List KVCache) (p : Nat) (xs : List Vec) :
    (runLayers Ls pads cs p xs).2.length = Ls.length := by
  induction Ls generalizing cs xs with
  | nil => rfl
  | cons L rest ih =>
      unfold runLayers
      simp only [List.length_cons, ih]

theorem stackChunk_snd_length (W : DecoderStack) (pads : List Bool)
    (cs : List KVCache) (p : Nat) (ts : List Nat) :
    (stackChunk W pads cs p ts).2.length = W.layers.length := by
  unfold stackChunk
  rw [runLayers_snd_length]

theorem layerChunk_grows (L : DecoderLayer) (pads : List Bool) (c : KVCache)
    (p : Nat) (xs : List Vec) :
    cacheGrows xs.length c (layerChunk L pads c p xs).2 := by
  refine ⟨?_, ?_, ?_⟩
  · rw [layerChunk_snd_eq, ifaChunk_keys_length, List.length_map]
  · rw [layerChunk_snd_eq, ifaChunk_vals_length, List.length_map]
  · exact ⟨_, _, rfl, rfl⟩

theorem runLayers_grows (Ls : List DecoderLayer) (pads : List Bool)
    (cs : List KVCache) (p : Nat) (xs : List Vec)
    (hlen : cs.length = Ls.length) :
    List.Forall₂ (cacheGrows xs.length) cs (runLayers Ls pads cs p xs).2 := by
  induction Ls generalizing cs xs with
  | nil =>
      cases cs with
      | nil => exact List.Forall₂.nil
      | cons c cs2 => simp at hlen
  | cons L rest ih =>
      cases cs with
      | nil => simp at hlen
      | cons c cs2 =>
          have hlen2 : cs2.length = rest.length := by
            simp at hlen; exact hlen
          unfold runLayers
          simp only [List.headD_cons, List.tail_cons]
          apply List.Forall₂.cons
          · exact layerChunk_grows L pads c p xs
          · have := ih cs2 ((layerChunk L pads c p xs).1) hlen2
            rwa [layerChunk_fst_length] at this

theorem stackChunk_grows (W : DecoderStack) (pads : List Bool)
    (cs : List KVCache) (p : Nat) (ts : List Nat)
    (hlen : cs.length = W.layers.length) :
    List.Forall₂ (cacheGrows ts.length) cs (stackChunk W pads cs p ts).2 := by
  unfold stackChunk
  have := runLayers_grows W.layers pads cs p
    (ts.map (fun t => W.embed.getD t [])) hlen
  rwa [List.length_map] at this

theorem forall₂_comp_trans {α : Type} {R S T : α → α → Prop}
    (h : ∀ a b c, R a b → S b c → T a c) :
    ∀ {l1 l2 l3 : List α}, List.Forall₂ R l1 l2 → List.Forall₂ S l2 l3 →
      List.Forall₂ T l1 l3 := by
  intro l1 l2 l3 h12 h23
  induction h12 generalizing l3 with
  | nil =>
      cases h23
      exact List.Forall₂.nil
  | cons hR hrest ih =>
      cases h23 with
      | cons hS h23rest =>
          exact List.Forall₂.cons (h _ _ _ hR hS) (ih h23rest)

theorem cacheGrows_comp (m n : Nat) (a b c : KVCache)
    (h1 : cacheGrows m a b) (h2 : cacheGrows n b c) :
    cacheGrows (m + n) a c := by
  rcases h1 with ⟨hk1, hv1, dk1, dv1, he1, he2⟩
  rcases h2 with ⟨hk2, hv2, dk2, dv2, hf1, hf2⟩
  refine ⟨by omega, by omega, dk1 ++ dk2, dv1 ++ dv2, ?_, ?_⟩
  · rw [hf1, he1, List.append_assoc]
  · rw [hf2, he2, List.append_assoc]

theorem cacheGrows_zero (c : KVCache) : cacheGrows 0 c c :=
  ⟨rfl, rfl, [], [], (List.append_nil _).symm, (List.append_nil _).symm⟩

theorem runIncremental_grows (W : DecoderStack) (pads : List Bool)
    (cs : List KVCache) (p : Nat) (ts : List Nat)
    (hlen : cs.length = W.layers.length) :
    List.Forall₂ (cacheGrows ts.length) cs (runIncremental W pads cs p ts).2 := by
  induction ts generalizing cs p with
  | nil =>
      show List.Forall₂ (cacheGrows 0) cs cs
      exact List.forall₂_same.mpr (fun c _ => cacheGrows_zero c)
  | cons t rest ih =>
      unfold runIncremental
      have hstep := stackChunk_grows W pads cs p [t] hlen
      have hlen2 : (stackChunk W pads cs p [t]).2.length = W.layers.length :=
        stackChunk_snd_length W pads cs p [t]
      have hrest := ih (stackChunk W pads cs p [t]).2 (p + 1) hlen2
      have := forall₂_comp_trans
        (fun a b c h1 h2 => cacheGrows_comp 1 rest.length a b c h1 h2)
        (by simpa using hstep) hrest
      simpa [Nat.add_comm] using this

theorem runIncremental_snd_length (W : DecoderStack) (pads : List Bool)
    (cs : List KVCache) (p : Nat) (ts : List Nat)
    (hlen : cs.length = W.layers.length) :
    (runIncremental W pads cs p ts).2.length = W.layers.length := by
  have := runIncremental_grows W pads cs p ts hlen
  rw [← this.length_eq]
  exact hlen

theorem length_combinedScores (M : CDMoE) (x : Vec) :
    (combinedScores M x).length = M.n_experts := by
  simp [combinedScores]

theorem tokenKey_wf (M : InnerFuncAttn) (pos : Nat) (x : Vec)
    (hWk : M.Wk.length = M.n_heads * M.headDim) :
    (tokenKey M pos x).length = M.n_heads ∧
      ∀ v ∈ tokenKey M pos x, v.length = M.headDim := by
  constructor
  · unfold tokenKey
    rw [List.length_map, length_chunks]
  · intro v hv
    unfold tokenKey at hv
    rcases List.mem_map.mp hv with ⟨u, hu, rfl⟩
    rw [length_rotateVec]
    apply chunks_mem_length M.n_heads M.headDim _ _ u hu
    rw [length_matVec, hWk]

theorem ifaChunk_shapes (M : InnerFuncAttn) (pads : List Bool) (xs : List Vec)
    (hwf : IFAWf M) :
    (ifaChunk M pads KVCache.emptyCache 0 xs).1.length = xs.length ∧
    (∀ v ∈ (ifaChunk M pads KVCache.emptyCache 0 xs).1, v.length = M.d_model) ∧
    (ifaChunk M pads KVCache.emptyCache 0 xs).2.keys.length = xs.length ∧
    (ifaChunk M pads KVCache.emptyCache 0 xs).2.vals.length = xs.length ∧
    (∀ e ∈ (ifaChunk M pads KVCache.emptyCache 0 xs).2.keys,
      e.length = M.n_heads ∧ ∀ v ∈ e, v.length = M.headDim) ∧
    (∀ e ∈ (ifaChunk M pads KVCache.emptyCache 0 xs).2.vals,
      e.length = M.n_heads ∧ ∀ v ∈ e, v.length = M.headDim) := by
  rcases hwf with ⟨hWq, hWk, hWv, hWo, hpool⟩
  refine ⟨ifaChunk_fst_length _ _ _ _ _, ?_, ?_, ?_, ?_, ?_⟩
  · intro v hv
    unfold ifaChunk at hv
    rcases mem_zipWith_decomp _ _ _ _ hv with ⟨j, hj1, hj2, hj3⟩
    rw [← hj3]
    unfold ifaAttendToken
    rw [length_matVec, hWo]
  · rw [ifaChunk_keys_length]
    simp [KVCache.emptyCache]
  · rw [ifaChunk_vals_length]
    simp [KVCache.emptyCache]
  · intro e he
    have : (ifaChunk M pads KVCache.emptyCache 0 xs).2.keys =
        List.zipWith (fun pos2 x2 => tokenKey M pos2 x2)
          (List.range' 0 xs.length) xs := rfl
    rw [this] at he
    rcases mem_zipWith_decomp _ _ _ _ he with ⟨j, hj1, hj2, hj3⟩
    rw [← hj3]
    exact tokenKey_wf M _ _ hWk
  · intro e he
    have : (ifaChunk M pads KVCache.emptyCache 0 xs).2.vals =
        xs.map (fun x2 => tokenVal M x2) := rfl
    rw [this] at he
    rcases List.mem_map.mp he with ⟨x, hx, rfl⟩
    exact tokenVal_wf M x ⟨hWq, hWk, hWv, hWo, hpool⟩

theorem cdmoeToken_length (M : CDMoE) (x : Vec)
    (h2 : M.W2.length = M.d_model)
    (hE2len : M.expertsW2.length = M.n_experts)
    (hE2 : ∀ W ∈ M.expertsW2, W.length = M.d_model) :
    (cdmoeToken M x).length = M.d_model := by
  have hdense : (densePath M x).length = M.d_model := by
    unfold densePath
    rw [length_matVec, h2]
  have hsparse : (sparsePath M x).length = M.d_model := by
    unfold sparsePath
    have hmem : ∀ v ∈ (topKExperts M.topk (combinedScores M x)).map (fun e =>
        smul (routingWeight M.topk (combinedScores M x) e) (expertFF M e x)),
        v.length = (zeroVec M.d_model).length := by
      intro v hv
      rcases List.mem_map.mp hv with ⟨e, he, rfl⟩
      have helt : e < M.n_experts := by
        have := mem_topKExperts_lt _ _ _ he
        rwa [length_combinedScores] at this
      rw [length_smul]
      unfold expertFF
      rw [length_matVec]
      have hein : e < M.expertsW2.length := by omega
      rw [List.getD_eq_getElem _ _ hein]
      rw [hE2 _ (List.getElem_mem hein)]
      simp [zeroVec]
    have := foldr_vadd_length _ (zeroVec M.d_model) hmem
    rw [this]
    simp [zeroVec]
  unfold cdmoeToken
  rw [length_vadd, hdense, hsparse, Nat.min_self]

theorem forall₂_zipWith_shape {α β γ : Type} (R : α → γ → Prop)
    (f : α → β → γ) (x : List α) (mask : List β)
    (hmask : mask.length = x.length) (h : ∀ a b, R a (f a b)) :
    List.Forall₂ R x (List.zipWith f x mask) := by
  induction x generalizing mask with
  | nil => simp [List.Forall₂.nil]
  | cons a as ih =>
      cases mask with
      | nil => simp at hmask
      | cons b bs =>
          simp only [List.zipWith_cons_cons]
          exact List.Forall₂.cons (h a b) (ih bs (by simpa using hmask))

theorem forall₂_map_shape {α γ : Type} (R : α → γ → Prop) (f : α → γ)
    (x : List α) (h : ∀ a ∈ x, R a (f a)) :
    List.Forall₂ R x (x.map f) := by
  induction x with
  | nil => exact List.Forall₂.nil
  | cons a as ih =>
      exact List.Forall₂.cons (h a (by simp))
        (ih (fun a2 h2 => h a2 (by simp [h2])))

/-! ## Claim theorems -/

/-- Claim C7: the mapping from a linear expert index to its (row-key, col-key)
coordinate pair, `row = index // side` and `col = index % side` with
`side = sqrt (n_experts)`, is a bijection fixed for the module's lifetime:
every expert index in `[0, n_experts)` maps to exactly one in-range pair, and
mapping an index to coordinates and back is the identity (and conversely for
every in-range pair). -/
theorem expert_index_bijection (side : Nat) (hs : 0 < side) :
    (∀ idx, idx < side * side →
      expertRow side idx < side ∧ expertCol side idx < side ∧
        expertIndex side (expertRow side idx) (expertCol side idx) = idx) ∧
    (∀ r, r < side → ∀ c, c < side →
      expertIndex side r c < side * side ∧
        expertRow side (expertIndex side r c) = r ∧
        expertCol side (expertIndex side r c) = c) := by
  constructor
  · intro idx hidx
    exact ⟨expertRow_lt side idx hidx, expertCol_lt side idx hs,
      expertIndex_row_col side idx hs⟩
  · intro r hr c hc
    exact ⟨expertIndex_lt side r c hr hc, expertRow_index side r c hc,
      expertCol_index side r c hc⟩

/-- Witness for C7 at the README example table side (8, i.e. 64 experts). -/
theorem expert_index_bijection_witness :
    0 < 8 ∧
    ((∀ idx, idx < 8 * 8 →
      expertRow 8 idx < 8 ∧ expertCol 8 idx < 8 ∧
        expertIndex 8 (expertRow 8 idx) (expertCol 8 idx) = idx) ∧
    (∀ r, r < 8 → ∀ c, c < 8 →
      expertIndex 8 r c < 8 * 8 ∧
        expertRow 8 (expertIndex 8 r c) = r ∧
        expertCol 8 (expertIndex 8 r c) = c)) :=
  ⟨by decide, expert_index_bijection 8 (by decide)⟩

/-- Claim C6: when two experts' combined scores tie at the k-th selection
boundary, the top-k selection keeps the lower index (if the higher index of a
tied pair is selected, so is the lower), and re-evaluating the selection on
the same scores yields the same expert set. -/
theorem cdmoe_tie_break_lower_index (k : Nat) (s : List ℚ) (i j : Nat)
    (hi : i < s.length) (hij : i < j) (heq : s.getD i 0 = s.getD j 0)
    (hj : j ∈ topKExperts k s) :
    i ∈ topKExperts k s ∧
      ∀ s2 : List ℚ, s2 = s → topKExperts k s2 = topKExperts k s :=
  ⟨topK_tie_prefers_lower k s i j hi hij heq hj, fun _ h => by rw [h]⟩

/-- Witness for C6: scores [3, 1, 1, 0] with k = 3 tie experts 1 and 2 at the
boundary; 2 being selected forces 1 to be selected. -/
theorem cdmoe_tie_break_lower_index_witness :
    (1 < ([3, 1, 1, 0] : List ℚ).length ∧ 1 < 2 ∧
      ([3, 1, 1, 0] : List ℚ).getD 1 0 = ([3, 1, 1, 0] : List ℚ).getD 2 0 ∧
      2 ∈ topKExperts 3 [3, 1, 1, 0]) ∧
    (1 ∈ topKExperts 3 [3, 1, 1, 0] ∧
      ∀ s2 : List ℚ, s2 = [3, 1, 1, 0] →
        topKExperts 3 s2 = topKExperts 3 [3, 1, 1, 0]) :=
  ⟨⟨by decide, by decide, by decide, by decide⟩,
   cdmoe_tie_break_lower_index 3 [3, 1, 1, 0] 1 2 (by decide) (by decide)
     (by decide) (by decide)⟩

/-- Claim C3: for every token processed by the CDMoE forward, exactly
`k = n_experts_heads * n_experts_per_head` experts receive non-zero routing
weight, the routing weights of the selected experts sum to 1, and every
unselected expert contributes weight exactly zero (under the valid
configuration `0 < k ≤ n_experts`). -/
theorem cdmoe_routing_cardinality (M : CDMoE) (x : Vec)
    (hk : 0 < M.topk) (hkn : M.topk ≤ M.n_experts) :
    ((List.range M.n_experts).filter
        (fun e => decide (routingWeight M.topk (combinedScores M x) e ≠ 0))).length
      = M.topk ∧
    ((topKExperts M.topk (combinedScores M x)).map
        (fun e => routingWeight M.topk (combinedScores M x) e)).sum = 1 ∧
    ∀ e, e ∉ topKExperts M.topk (combinedScores M x) →
      routingWeight M.topk (combinedScores M x) e = 0 := by
  have hlen := length_combinedScores M x
  have hkn2 : M.topk ≤ (combinedScores M x).length := by rw [hlen]; exact hkn
  have hne : combinedScores M x ≠ [] := by
    intro h
    rw [h] at hlen
    simp only [List.length_nil] at hlen
    omega
  refine ⟨?_, routingWeight_sum_selected _ _ hk hne,
    fun e he => routingWeight_of_unselected _ _ e he⟩
  have h := routingWeight_nonzero_count M.topk (combinedScores M x) hk hkn2
  rwa [hlen] at h

/-- Witness for C3 at the minimal CDMoE instance on the token [1, 0]. -/
theorem cdmoe_routing_cardinality_witness :
    (0 < exMoE2.topk ∧ exMoE2.topk ≤ exMoE2.n_experts) ∧
    (((List.range exMoE2.n_experts).filter
        (fun e => decide (routingWeight exMoE2.topk
          (combinedScores exMoE2 [1, 0]) e ≠ 0))).length = exMoE2.topk ∧
    ((topKExperts exMoE2.topk (combinedScores exMoE2 [1, 0])).map
        (fun e => routingWeight exMoE2.topk
          (combinedScores exMoE2 [1, 0]) e)).sum = 1 ∧
    ∀ e, e ∉ topKExperts exMoE2.topk (combinedScores exMoE2 [1, 0]) →
      routingWeight exMoE2.topk (combinedScores exMoE2 [1, 0]) e = 0) :=
  ⟨⟨by decide, by decide⟩,
   cdmoe_routing_cardinality exMoE2 [1, 0] (by decide) (by decide)⟩

/-- Claim C4: in the IFA attention computation, every query position with at
least one allowed (causally visible, non-padding) key has attention weights
summing to exactly 1 over the key axis, and every disallowed key position
(later than the query, or padding) receives exactly zero weight. -/
theorem ifa_attention_mass (M : InnerFuncAttn) (pads : List Bool)
    (K : List (List Vec)) (pos : Nat) (q : Vec) (h j0 : Nat)
    (hj0 : j0 < K.length) (hj0pos : j0 ≤ pos)
    (hj0pad : pads.getD j0 false = true) :
    (ifaAttnRow M pads K pos q h).sum = 1 ∧
    ∀ j, j < K.length → (pos < j ∨ pads.getD j false = false) →
      (ifaAttnRow M pads K pos q h).getD j 0 = 0 :=
  ⟨ifaAttnRow_sum_one M pads K pos q h j0 hj0 hj0pos hj0pad,
   fun j hj hdis => ifaAttnRow_zero_disallowed M pads K pos q h j hj hdis⟩

/-- Witness for C4: two keys, the second one beyond the query position. -/
theorem ifa_attention_mass_witness :
    (0 < ([[[0, 0]], [[0, 0]]] : List (List Vec)).length ∧ 0 ≤ 0 ∧
      ([true, true] : List Bool).getD 0 false = true) ∧
    ((ifaAttnRow exAttn2 [true, true] [[[0, 0]], [[0, 0]]] 0 [0, 0] 0).sum = 1 ∧
    ∀ j, j < ([[[0, 0]], [[0, 0]]] : List (List Vec)).length →
      (0 < j ∨ ([true, true] : List Bool).getD j false = false) →
      (ifaAttnRow exAttn2 [true, true] [[[0, 0]], [[0, 0]]] 0 [0, 0] 0).getD j 0
        = 0) :=
  ⟨⟨by decide, by decide, by decide⟩,
   ifa_attention_mass exAttn2 [true, true] [[[0, 0]], [[0, 0]]] 0 [0, 0] 0 0
     (by decide) (by decide) (by decide)⟩

/-- Claim C5: a query position whose keys are all disallowed (an all-zero
attention-mask row) produces the defined fallback output — exactly the zero
vector in model dimension, hence finite and never an error (the model's
forward is total and exact over ℚ, so no NaN can arise). -/
theorem ifa_masked_row_safety (M : InnerFuncAttn) (pads : List Bool)
    (K V : List (List Vec)) (pos : Nat) (x : Vec)
    (hall : ∀ j, j < K.length → (decide (j ≤ pos) && pads.getD j false) = false)
    (hVwf : ∀ e ∈ V, e.length = M.n_heads ∧ ∀ v ∈ e, v.length = M.headDim)
    (hWo : M.Wo.length = M.d_model) :
    ifaAttendToken M pads K V pos x = zeroVec M.d_model := by
  rw [← hWo]
  exact ifaAttendToken_masked_zero M pads K V pos x hall hVwf

/-- Witness for C5: one fully padded key position. -/
theorem ifa_masked_row_safety_witness :
    ((∀ j, j < ([[[0, 0]]] : List (List Vec)).length →
        (decide (j ≤ 0) && ([false] : List Bool).getD j false) = false) ∧
      (∀ e ∈ ([[[0, 0]]] : List (List Vec)),
        e.length = exAttn2.n_heads ∧ ∀ v ∈ e, v.length = exAttn2.headDim) ∧
      exAttn2.Wo.length = exAttn2.d_model) ∧
    ifaAttendToken exAttn2 [false] [[[0, 0]]] [[[0, 0]]] 0 [1, 1] =
      zeroVec exAttn2.d_model :=
  ⟨⟨by decide, by decide, by decide⟩,
   ifa_masked_row_safety exAttn2 [false] [[[0, 0]]] [[[0, 0]]] 0 [1, 1]
     (by decide) (by decide) (by decide)⟩

/-- Claim C10: each invalid hyperparameter combination the spec names —
`k > n_experts`, `d_model` not divisible by `n_heads`, `n_experts` not a
perfect square — makes the module constructor return a configuration error
eagerly; the forward functions are total on constructed modules, so the
error can never surface at forward-call time. -/
theorem config_errors_at_construction (A : InnerFuncAttn) (M : CDMoE)
    (hA : A.d_model % A.n_heads ≠ 0)
    (hM : M.n_experts < M.topk ∨ M.side * M.side ≠ M.n_experts) :
    (∃ e, mkInnerFuncAttn A = Except.error e) ∧
    ∃ e2, mkCDMoE M = Except.error e2 := by
  constructor
  · refine ⟨"configuration error: d_model not divisible by n_heads", ?_⟩
    have hfalse : attnConfigOk A = false := by
      unfold attnConfigOk
      exact beq_eq_false_iff_ne.mpr hA
    unfold mkInnerFuncAttn
    rw [hfalse]
    simp
  · rcases hM with h | h
    · refine ⟨"configuration error: k > n_experts", ?_⟩
      unfold mkCDMoE
      rw [if_pos h]
    · by_cases hlt : M.n_experts < M.topk
      · refine ⟨"configuration error: k > n_experts", ?_⟩
        unfold mkCDMoE
        rw [if_pos hlt]
      · refine ⟨"configuration error: n_experts is not a perfect square", ?_⟩
        unfold mkCDMoE
        rw [if_neg hlt, if_pos h]

/-- Witness for C10: 3-dimensional model with 2 heads, and top-5 routing over
4 experts. -/
theorem config_errors_at_construction_witness :
    (badAttn.d_model % badAttn.n_heads ≠ 0 ∧
      (badMoE.n_experts < badMoE.topk ∨
        badMoE.side * badMoE.side ≠ badMoE.n_experts)) ∧
    ((∃ e, mkInnerFuncAttn badAttn = Except.error e) ∧
      ∃ e2, mkCDMoE badMoE = Except.error e2) :=
  ⟨⟨by decide, by decide⟩,
   config_errors_at_construction badAttn badMoE (by decide) (by decide)⟩

/-- Claim C9: the rotary encoder's apply operation rotates each
last-dimension pair by the (cos, sin) schedule at the given position —
`output[2i] = x[2i]·cos_i − x[2i+1]·sin_i` and
`output[2i+1] = x[2i]·sin_i + x[2i+1]·cos_i` — the query path applies it with
the schedule taken at an arbitrary absolute position `pos`, and inside the
IFA chunk the token at local index `i2` of a chunk starting at cache length
`p` is processed at absolute position `p + i2` (cache length at call time,
not 0). -/
theorem rotary_apply_formula (c s x : Vec) (i : Nat) (hx : 2 * i + 1 < x.length)
    (M : InnerFuncAttn) (pos h : Nat) (hh : h < M.n_heads) (xq : Vec)
    (pads : List Bool) (cache : KVCache) (p : Nat) (xs : List Vec)
    (i2 : Nat) (hi2 : i2 < xs.length) :
    (rotateVec c s x).getD (2 * i) 0 =
      x.getD (2 * i) 0 * c.getD i 0 - x.getD (2 * i + 1) 0 * s.getD i 0 ∧
    (rotateVec c s x).getD (2 * i + 1) 0 =
      x.getD (2 * i) 0 * s.getD i 0 + x.getD (2 * i + 1) 0 * c.getD i 0 ∧
    (tokenQuery M pos xq).getD h [] =
      rotateVec (M.rotCos pos) (M.rotSin pos)
        ((chunks M.n_heads M.headDim (matVec M.Wq xq)).getD h []) ∧
    (ifaChunk M pads cache p xs).1.getD i2 [] =
      ifaAttendToken M pads (ifaChunk M pads cache p xs).2.keys
        (ifaChunk M pads cache p xs).2.vals (p + i2) (xs.getD i2 []) := by
  refine ⟨rotateVec_even c s x i (by omega), rotateVec_odd c s x i hx, ?_, ?_⟩
  · have hc : h < (chunks M.n_heads M.headDim (matVec M.Wq xq)).length := by
      rw [length_chunks]; exact hh
    have hq : h < (tokenQuery M pos xq).length := by
      unfold tokenQuery
      rw [List.length_map, length_chunks]; exact hh
    rw [List.getD_eq_getElem _ _ hq, List.getD_eq_getElem _ _ hc]
    unfold tokenQuery
    rw [List.getElem_map]
  · have hz : i2 < (ifaChunk M pads cache p xs).1.length := by
      rw [ifaChunk_fst_length]; exact hi2
    rw [List.getD_eq_getElem _ _ hz, List.getD_eq_getElem _ _ hi2]
    unfold ifaChunk
    rw [List.getElem_zipWith, List.getElem_range']
    simp only [Nat.one_mul]

/-- Witness for C9 at a nonzero absolute offset (p = 5, pos = 7). -/
theorem rotary_apply_formula_witness :
    (2 * 0 + 1 < ([2, 3] : Vec).length ∧ 0 < exAttn2.n_heads ∧
      0 < ([[1, 0]] : List Vec).length) ∧
    ((rotateVec [1] [0] [2, 3]).getD (2 * 0) 0 =
      ([2, 3] : Vec).getD (2 * 0) 0 * ([1] : Vec).getD 0 0 -
        ([2, 3] : Vec).getD (2 * 0 + 1) 0 * ([0] : Vec).getD 0 0 ∧
    (rotateVec [1] [0] [2, 3]).getD (2 * 0 + 1) 0 =
      ([2, 3] : Vec).getD (2 * 0) 0 * ([0] : Vec).getD 0 0 +
        ([2, 3] : Vec).getD (2 * 0 + 1) 0 * ([1] : Vec).getD 0 0 ∧
    (tokenQuery exAttn2 7 [1, 0]).getD 0 [] =
      rotateVec (exAttn2.rotCos 7) (exAttn2.rotSin 7)
        ((chunks exAttn2.n_heads exAttn2.headDim
          (matVec exAttn2.Wq [1, 0])).getD 0 []) ∧
    (ifaChunk exAttn2 [true] KVCache.emptyCache 5 [[1, 0]]).1.getD 0 [] =
      ifaAttendToken exAttn2 [true]
        (ifaChunk exAttn2 [true] KVCache.emptyCache 5 [[1, 0]]).2.keys
        (ifaChunk exAttn2 [true] KVCache.emptyCache 5 [[1, 0]]).2.vals
        (5 + 0) (([[1, 0]] : List Vec).getD 0 [])) :=
  ⟨⟨by decide, by decide, by decide⟩,
   rotary_apply_formula [1] [0] [2, 3] 0 (by decide) exAttn2 7 0 (by decide)
     [1, 0] [true] KVCache.emptyCache 5 [[1, 0]] 0 (by decide)⟩

/-- Claim C1: for every stack of well-formed weights, padding mask and token
sequence, running the Decoder Stack once over the full sequence (cache
starting empty) and running it one token per step with the returned caches
carried forward produce identical results — the concatenated per-step logits
equal the full-run logits at every prefix position, and the final caches
coincide; over exact rationals the equality is exact (stronger than the
floating-tolerance phrasing). -/
theorem decoder_stack_causal_consistency (W : DecoderStack) (pads : List Bool)
    (tokens : List Nat) (hwf : StackWF W) :
    runIncremental W pads (emptyCaches W.layers.length) 0 tokens =
      stackChunk W pads (emptyCaches W.layers.length) 0 tokens :=
  runIncremental_eq_stackChunk W pads hwf tokens _ 0 (emptyCaches_wf W.layers)

/-- Witness for C1 on the one-layer example stack with two tokens. -/
theorem decoder_stack_causal_consistency_witness :
    StackWF exStack ∧
    runIncremental exStack [true, true] (emptyCaches exStack.layers.length) 0
        [0, 1] =
      stackChunk exStack [true, true] (emptyCaches exStack.layers.length) 0
        [0, 1] :=
  ⟨by simp only [StackWF, IFAWf]; decide,
   decoder_stack_causal_consistency exStack [true, true] [0, 1]
     (by simp only [StackWF, IFAWf]; decide)⟩

/-- Claim C8: for every well-formed configuration and every batch and
sequence size, the IFA forward and the CDMoE forward each return an output of
exactly the shape of their hidden-state input — batchwise the output pairs
with the input sequence, every output row has the input row count, every
output vector has model dimension — and the per-batch caches hold one entry
per position, each with `n_heads` key/value head vectors of `head_dim`. -/
theorem forward_shape_invariant (M : InnerFuncAttn) (Mo : CDMoE)
    (x : List (List Vec)) (mask : List (List Bool))
    (hwf : IFAWf M) (hmask : mask.length = x.length)
    (h2 : Mo.W2.length = Mo.d_model)
    (hE2len : Mo.expertsW2.length = Mo.n_experts)
    (hE2 : ∀ Wm ∈ Mo.expertsW2, Wm.length = Mo.d_model) :
    (ifaForward M x mask).1.length = x.length ∧
    List.Forall₂ (fun xs os => os.length = xs.length ∧
      ∀ v ∈ os, v.length = M.d_model) x (ifaForward M x mask).1 ∧
    (ifaForward M x mask).2.length = x.length ∧
    List.Forall₂ (fun xs cc => cc.seenLength = xs.length ∧
      (∀ e ∈ cc.keys, e.length = M.n_heads ∧ ∀ v ∈ e, v.length = M.headDim) ∧
      (∀ e ∈ cc.vals, e.length = M.n_heads ∧ ∀ v ∈ e, v.length = M.headDim))
      x (ifaForward M x mask).2 ∧
    (cdmoeForward Mo x).length = x.length ∧
    List.Forall₂ (fun xs os => os.length = xs.length ∧
      ∀ v ∈ os, v.length = Mo.d_model) x (cdmoeForward Mo x) := by
  have hsh := fun (xs : List Vec) (pads : List Bool) => ifaChunk_shapes M pads xs hwf
  refine ⟨?_, ?_, ?_, ?_, ?_, ?_⟩
  · unfold ifaForward
    dsimp only
    rw [List.length_zipWith, hmask, Nat.min_self]
  · unfold ifaForward
    dsimp only
    exact forall₂_zipWith_shape _ _ x mask hmask
      (fun a b => ⟨(hsh a b).1, (hsh a b).2.1⟩)
  · unfold ifaForward
    dsimp only
    rw [List.length_zipWith, hmask, Nat.min_self]
  · unfold ifaForward
    dsimp only
    refine forall₂_zipWith_shape _ _ x mask hmask (fun a b => ?_)
    refine ⟨?_, (hsh a b).2.2.2.2.1, (hsh a b).2.2.2.2.2⟩
    unfold KVCache.seenLength
    exact (hsh a b).2.2.1
  · unfold cdmoeForward
    rw [List.length_map]
  · unfold cdmoeForward
    refine forall₂_map_shape _ _ x (fun a _ => ?_)
    refine ⟨List.length_map _ _, ?_⟩
    intro v hv
    rcases List.mem_map.mp hv with ⟨t, ht, rfl⟩
    exact cdmoeToken_length Mo t h2 hE2len hE2

/-- Witness for C8 at the README example sizes: batch 2, sequence 16,
d_model 64, n_heads 1, n_inner_values 16; CDMoE with 64 experts, 1 expert
head, 2 experts per head. -/
theorem forward_shape_invariant_witness :
    (IFAWf exAttn64 ∧
      (List.replicate 2 (List.replicate 16 Bool.true)).length =
        (List.replicate 2 (List.replicate 16 (List.replicate 64 (0 : ℚ)))).length ∧
      exMoE64.W2.length = exMoE64.d_model ∧
      exMoE64.expertsW2.length = exMoE64.n_experts ∧
      ∀ Wm ∈ exMoE64.expertsW2, Wm.length = exMoE64.d_model) ∧
    ((ifaForward exAttn64
        (List.replicate 2 (List.replicate 16 (List.replicate 64 (0 : ℚ))))
        (List.replicate 2 (List.replicate 16 Bool.true))).1.length =
      (List.replicate 2 (List.replicate 16 (List.replicate 64 (0 : ℚ)))).length ∧
    List.Forall₂ (fun xs os => os.length = xs.length ∧
      ∀ v ∈ os, v.length = exAttn64.d_model)
      (List.replicate 2 (List.replicate 16 (List.replicate 64 (0 : ℚ))))
      (ifaForward exAttn64
        (List.replicate 2 (List.replicate 16 (List.replicate 64 (0 : ℚ))))
        (List.replicate 2 (List.replicate 16 Bool.true))).1 ∧
    (ifaForward exAttn64
        (List.replicate 2 (List.replicate 16 (List.replicate 64 (0 : ℚ))))
        (List.replicate 2 (List.replicate 16 Bool.true))).2.length =
      (List.replicate 2 (List.replicate 16 (List.replicate 64 (0 : ℚ)))).length ∧
    List.Forall₂ (fun xs cc => cc.seenLength = xs.length ∧
      (∀ e ∈ cc.keys, e.length = exAttn64.n_heads ∧
        ∀ v ∈ e, v.length = exAttn64.headDim) ∧
      (∀ e ∈ cc.vals, e.length = exAttn64.n_heads ∧
        ∀ v ∈ e, v.length = exAttn64.headDim))
      (List.replicate 2 (List.replicate 16 (List.replicate 64 (0 : ℚ))))
      (ifaForward exAttn64
        (List.replicate 2 (List.replicate 16 (List.replicate 64 (0 : ℚ))))
        (List.replicate 2 (List.replicate 16 Bool.true))).2 ∧
    (cdmoeForward exMoE64
        (List.replicate 2 (List.replicate 16 (List.replicate 64 (0 : ℚ))))).length =
      (List.replicate 2 (List.replicate 16 (List.replicate 64 (0 : ℚ)))).length ∧
    List.Forall₂ (fun xs os => os.length = xs.length ∧
      ∀ v ∈ os, v.length = exMoE64.d_model)
      (List.replicate 2 (List.replicate 16 (List.replicate 64 (0 : ℚ))))
      (cdmoeForward exMoE64
        (List.replicate 2 (List.replicate 16 (List.replicate 64 (0 : ℚ)))))) :=
  ⟨⟨by simp only [IFAWf]; decide, by decide, by decide, by decide, by decide⟩,
   forward_shape_invariant exAttn64 exMoE64
     (List.replicate 2 (List.replicate 16 (List.replicate 64 (0 : ℚ))))
     (List.replicate 2 (List.replicate 16 Bool.true))
     (by simp only [IFAWf]; decide) (by decide) (by decide) (by decide)
     (by decide)⟩

/-- Claim C2: after `N` single-step Decoder Stack calls (cache starting
empty) every layer's cache has seen length exactly `N`; for every `M ≤ N`
the seen length after `M` steps (namely `M`) is at most the seen length
after `N` steps, so `seen_length` is monotonically non-decreasing across
steps; and the first `M` key/value entries of the `N`-step cache are exactly
the cache contents after `M` steps — entries, once written, are never
overwritten, only appended to. -/
theorem kv_cache_append_only (W : DecoderStack) (pads : List Bool)
    (tokens : List Nat) (M : Nat) (hM : M ≤ tokens.length) :
    ((runIncremental W pads (emptyCaches W.layers.length) 0 tokens).2.length
        = W.layers.length) ∧
    (∀ c ∈ (runIncremental W pads (emptyCaches W.layers.length) 0 tokens).2,
      c.seenLength = tokens.length) ∧
    (∀ i : Nat,
      ((runIncremental W pads (emptyCaches W.layers.length) 0
          (tokens.take M)).2.getD i KVCache.emptyCache).seenLength ≤
        ((runIncremental W pads (emptyCaches W.layers.length) 0
          tokens).2.getD i KVCache.emptyCache).seenLength) ∧
    (∀ i : Nat,
      ((runIncremental W pads (emptyCaches W.layers.length) 0
          tokens).2.getD i KVCache.emptyCache).keys.take M =
        ((runIncremental W pads (emptyCaches W.layers.length) 0
          (tokens.take M)).2.getD i KVCache.emptyCache).keys ∧
      ((runIncremental W pads (emptyCaches W.layers.length) 0
          tokens).2.getD i KVCache.emptyCache).vals.take M =
        ((runIncremental W pads (emptyCaches W.layers.length) 0
          (tokens.take M)).2.getD i KVCache.emptyCache).vals) := by
  have hlen0 : (emptyCaches W.layers.length).length = W.layers.length := by
    simp [emptyCaches]
  have hNlen : (runIncremental W pads (emptyCaches W.layers.length) 0
      tokens).2.length = W.layers.length :=
    runIncremental_snd_length _ _ _ _ _ hlen0
  have hMlen : (runIncremental W pads (emptyCaches W.layers.length) 0
      (tokens.take M)).2.length = W.layers.length :=
    runIncremental_snd_length _ _ _ _ _ hlen0
  have growN := runIncremental_grows W pads _ 0 tokens hlen0
  have growM := runIncremental_grows W pads _ 0 (tokens.take M) hlen0
  have htakelen : (tokens.take M).length = M := by
    rw [List.length_take]
    omega
  have happ := runIncremental_append W pads (emptyCaches W.layers.length) 0
    (tokens.take M) (tokens.drop M)
  rw [List.take_append_drop] at happ
  have growD := runIncremental_grows W pads
    (runIncremental W pads (emptyCaches W.layers.length) 0 (tokens.take M)).2
    (0 + (tokens.take M).length) (tokens.drop M) hMlen
  refine ⟨hNlen, ?_, ?_, ?_⟩
  · intro c hc
    rcases List.mem_iff_getElem.mp hc with ⟨idx, hidx, rfl⟩
    have hidx0 : idx < (emptyCaches W.layers.length).length := by
      rw [hlen0]
      rw [hNlen] at hidx
      exact hidx
    have hidxN : idx < (runIncremental W pads (emptyCaches W.layers.length) 0
        tokens).2.length := hidx
    have hg := growN.get hidx0 hidxN
    simp only [List.get_eq_getElem] at hg
    have hemp : (emptyCaches W.layers.length)[idx] = KVCache.emptyCache := by
      unfold emptyCaches
      simp
    rw [hemp] at hg
    rcases hg with ⟨hk, _, _⟩
    unfold KVCache.seenLength
    rw [hk]
    simp [KVCache.emptyCache]
  · intro i
    by_cases hi : i < W.layers.length
    · have h0 : i < (emptyCaches W.layers.length).length := by
        rw [hlen0]; exact hi
      have hMi : i < (runIncremental W pads (emptyCaches W.layers.length) 0
          (tokens.take M)).2.length := by
        rw [hMlen]; exact hi
      have hNi : i < (runIncremental W pads (emptyCaches W.layers.length) 0
          tokens).2.length := by
        rw [hNlen]; exact hi
      have hgM := growM.get h0 hMi
      have hgN := growN.get h0 hNi
      simp only [List.get_eq_getElem] at hgM hgN
      have hemp : (emptyCaches W.layers.length)[i] = KVCache.emptyCache := by
        unfold emptyCaches
        simp
      rw [hemp] at hgM hgN
      rcases hgM with ⟨hkM, _, _⟩
      rcases hgN with ⟨hkN, _, _⟩
      rw [List.getD_eq_getElem _ _ hMi, List.getD_eq_getElem _ _ hNi]
      unfold KVCache.seenLength
      rw [hkM, hkN]
      simp only [KVCache.emptyCache, List.length_nil, Nat.zero_add, htakelen]
      omega
    · have hMout : (runIncremental W pads (emptyCaches W.layers.length) 0
          (tokens.take M)).2.length ≤ i := by
        rw [hMlen]; omega
      have hNout : (runIncremental W pads (emptyCaches W.layers.length) 0
          tokens).2.length ≤ i := by
        rw [hNlen]; omega
      rw [List.getD_eq_default _ _ hMout, List.getD_eq_default _ _ hNout]
  · intro i
    by_cases hi : i < W.layers.length
    · have hDlen : (runIncremental W pads
          (runIncremental W pads (emptyCaches W.layers.length) 0
            (tokens.take M)).2
          (0 + (tokens.take M).length) (tokens.drop M)).2.length =
          W.layers.length :=
        runIncremental_snd_length _ _ _ _ _ hMlen
      have h0 : i < (emptyCaches W.layers.length).length := by
        rw [hlen0]; exact hi
      have hMi : i < (runIncremental W pads (emptyCaches W.layers.length) 0
          (tokens.take M)).2.length := by
        rw [hMlen]; exact hi
      have hgM := growM.get h0 hMi
      simp only [List.get_eq_getElem] at hgM
      have hemp : (emptyCaches W.layers.length)[i] = KVCache.emptyCache := by
        unfold emptyCaches
        simp
      rw [hemp] at hgM
      rcases hgM with ⟨hkM, hvM, _⟩
      simp only [KVCache.emptyCache, List.length_nil, Nat.zero_add,
        htakelen] at hkM hvM
      have hDi : i < (runIncremental W pads
          (runIncremental W pads (emptyCaches W.layers.length) 0
            (tokens.take M)).2
          (0 + (tokens.take M).length) (tokens.drop M)).2.length := by
        rw [hDlen]; exact hi
      have hgD := growD.get hMi hDi
      simp only [List.get_eq_getElem] at hgD
      rcases hgD with ⟨_, _, dk, dv, hke, hve⟩
      have hNi : i < (runIncremental W pads (emptyCaches W.layers.length) 0
          tokens).2.length := by
        rw [hNlen]; exact hi
      rw [List.getD_eq_getElem _ _ hNi, List.getD_eq_getElem _ _ hMi]
      have hproj : (runIncremental W pads (emptyCaches W.layers.length) 0
          tokens).2[i] =
          (runIncremental W pads
            (runIncremental W pads (emptyCaches W.layers.length) 0
              (tokens.take M)).2
            (0 + (tokens.take M).length) (tokens.drop M)).2[i] := by
        congr 1
        rw [happ]
      rw [hproj, hke, hve]
      constructor
      · rw [List.take_append_of_le_length (by rw [hkM]),
          List.take_of_length_le (by rw [hkM])]
      · rw [List.take_append_of_le_length (by rw [hvM]),
          List.take_of_length_le (by rw [hvM])]
    · have hMout : (runIncremental W pads (emptyCaches W.layers.length) 0
          (tokens.take M)).2.length ≤ i := by
        rw [hMlen]; omega
      have hNout : (runIncremental W pads (emptyCaches W.layers.length) 0
          tokens).2.length ≤ i := by
        rw [hNlen]; omega
      rw [List.getD_eq_default _ _ hMout, List.getD_eq_default _ _ hNout]
      simp [KVCache.emptyCache]

/-- Witness for C2 on the one-layer example stack with two tokens and
prefix length M = 1. -/
theorem kv_cache_append_only_witness :
    1 ≤ ([0, 1] : List Nat).length ∧
    (((runIncremental exStack [true, true]
        (emptyCaches exStack.layers.length) 0 [0, 1]).2.length
        = exStack.layers.length) ∧
    (∀ c ∈ (runIncremental exStack [true, true]
        (emptyCaches exStack.layers.length) 0 [0, 1]).2,
      c.seenLength = ([0, 1] : List Nat).length) ∧
    (∀ i : Nat,
      ((runIncremental exStack [true, true]
          (emptyCaches exStack.layers.length) 0
          (([0, 1] : List Nat).take 1)).2.getD i KVCache.emptyCache).seenLength ≤
        ((runIncremental exStack [true, true]
          (emptyCaches exStack.layers.length) 0
          [0, 1]).2.getD i KVCache.emptyCache).seenLength) ∧
    (∀ i : Nat,
      ((runIncremental exStack [true, true]
          (emptyCaches exStack.layers.length) 0
          [0, 1]).2.getD i KVCache.emptyCache).keys.take 1 =
        ((runIncremental exStack [true, true]
          (emptyCaches exStack.layers.length) 0
          (([0, 1] : List Nat).take 1)).2.getD i KVCache.emptyCache).keys ∧
      ((runIncremental exStack [true, true]
          (emptyCaches exStack.layers.length) 0
          [0, 1]).2.getD i KVCache.emptyCache).vals.take 1 =
        ((runIncremental exStack [true, true]
          (emptyCaches exStack.layers.length) 0
          (([0, 1] : List Nat).take 1)).2.getD i KVCache.emptyCache).vals)) :=
  ⟨by decide,
   kv_cache_append_only exStack [true, true] [0, 1] 1 (by decide)⟩

end Doge
